import Mathlib

/-!
Shallow embedding of `werkzeug/routing.py` (the URL mapper: pattern parser,
converters, `Rule`, `Map.match` / `Map.build`) together with proofs about the
claims of the specification.  Python strings are modelled as Lean `String` /
`List Char`; Python exceptions are modelled with `Except`; the distinguished
catchable `ValidationError` is the `Unit` error of converter codecs, while
other exceptions (`ValueError`, `AttributeError`, `KeyError`, ...) live in
`PyError`.
-/

namespace Werkzeug

/-- Python exceptions other than `ValidationError` that the routing code can
raise.  `duplicateVariable` and `malformedRule` are the two `ValueError`s of
`parse_rule` (distinguished here by their message), `unknownParameter` the
`ValueError` of `parse_arguments`.  `outOfFuel` marks exhaustion of the
structural-recursion fuel of loops; every use supplies enough fuel for it to
be unreachable. -/
inductive PyError where
  | valueError (msg : String)
  | unknownParameter (key : String)
  | duplicateVariable (name : String)
  | malformedRule
  | attributeError (msg : String)
  | keyError (key : String)
  | outOfFuel
deriving DecidableEq, Repr

/-- Values produced by converters: `int` yields Python ints, the unicode
converters yield text. -/
inductive Value where
  | vInt (n : Int)
  | vStr (s : String)
deriving DecidableEq, Repr

/-- `unicode(value)` for the two value shapes. -/
def pyUnicode : Value → String
  | .vInt n => toString n
  | .vStr s => s

/-- `path_info.lstrip('/')` on character lists. -/
def lstripSlash (cs : List Char) : List Char := cs.dropWhile (· = '/')

/-- `string.rstrip('/')` on character lists. -/
def rstripSlash (cs : List Char) : List Char :=
  (cs.reverse.dropWhile (· = '/')).reverse

/-- `string.startswith('/')`. -/
def pyStartsSlash (s : String) : Bool :=
  match s.toList with
  | c :: _ => c = '/'
  | [] => false

/-- `string.endswith('/')`, tested on the reversed character list. -/
def pyEndsSlash (s : String) : Bool :=
  match s.toList.reverse with
  | c :: _ => c = '/'
  | [] => false

/-- Python `str.strip()` (whitespace on both ends). -/
def pyStrip (cs : List Char) : List Char :=
  ((cs.dropWhile Char.isWhitespace).reverse.dropWhile Char.isWhitespace).reverse

/-- Python `str.lower()` restricted to ASCII, which is all the argument
mini-language uses. -/
def pyLower (cs : List Char) : List Char := cs.map Char.toLower

/-- `s.split(sep, 1)`: `none` when the separator does not occur (Python's
result list then has length 1). -/
def splitOnce (sep : Char) : List Char → Option (List Char × List Char)
  | [] => none
  | c :: rest =>
    if c = sep then some ([], rest)
    else (splitOnce sep rest).map (fun p => (c :: p.1, p.2))

/-- `int(s)` on a stripped string: optional sign followed by decimal digits,
`ValueError` otherwise. -/
def digitsToNat (cs : List Char) : Nat :=
  cs.foldl (fun a c => a * 10 + (c.toNat - '0'.toNat)) 0

/-- Python `int()` applied to the (already stripped) text of a converter
argument. -/
def pyInt (cs : List Char) : Except PyError Int :=
  match cs with
  | [] => .error (.valueError "invalid literal for int()")
  | '-' :: rest =>
    if rest ≠ [] ∧ rest.all Char.isDigit then .ok (-(digitsToNat rest : Int))
    else .error (.valueError "invalid literal for int()")
  | '+' :: rest =>
    if rest ≠ [] ∧ rest.all Char.isDigit then .ok (digitsToNat rest)
    else .error (.valueError "invalid literal for int()")
  | _ =>
    if cs.all Char.isDigit then .ok (digitsToNat cs)
    else .error (.valueError "invalid literal for int()")

/-- The typed default of one converter argument (`int` or `bool` values). -/
inductive ArgVal where
  | aInt (z : Int)
  | aBool (b : Bool)
deriving DecidableEq, Repr

/-- The declared type of one converter argument: the first component of the
pairs passed to `parse_arguments` (`int` or `bool`). -/
inductive ArgKind where
  | kInt
  | kBool
deriving DecidableEq, Repr

/-- One entry of the `defaults` keyword mapping of `parse_arguments`:
`key=(conv, default)`. -/
structure ArgDefault where
  key : String
  kind : ArgKind
  dflt : ArgVal
deriving Repr

/-- Python dict assignment `result[key] = val` on an association list. -/
def setKey (k : String) (v : ArgVal) : List (String × ArgVal) → List (String × ArgVal)
  | [] => [(k, v)]
  | (k0, v0) :: rest => if k0 = k then (k0, v) :: rest else (k0, v0) :: setKey k v rest

/-- The `while True` loop of `parse_arguments`.  `rest.split('=', 1)` with no
`'='` breaks the loop; otherwise `rest.split(',')` either has exactly two
pieces (value and new rest) or leaves `value` bound to the whole LIST, on
which the later `value.strip()` raises `AttributeError`.  Unknown keys raise
`ValueError` (checked before the strip).  Each iteration shortens `rest`, so
fuel `|rest| + 1` makes `outOfFuel` unreachable. -/
def parseArgsLoop (defaults : List ArgDefault) :
    Nat → List Char → List (String × ArgVal) → Except PyError (List (String × ArgVal))
  | 0, _, _ => .error .outOfFuel
  | fuel + 1, rest, result =>
    match splitOnce '=' rest with
    | none => .ok result
    | some (key0, rest1) =>
      let parts := rest1.splitOn ','
      let key := String.mk (pyStrip key0)
      match defaults.find? (fun d => d.key = key) with
      | none => .error (.unknownParameter key)
      | some d =>
        match parts with
        | [v, r] =>
          match d.kind with
          | .kBool =>
            parseArgsLoop defaults fuel r
              (setKey key (.aBool (pyLower (pyStrip v) = "true".toList)) result)
          | .kInt =>
            match pyInt (pyStrip v) with
            | .error e => .error e
            | .ok z => parseArgsLoop defaults fuel r (setKey key (.aInt z) result)
        | _ =>
          -- `value = tmp` bound the whole list; `value.strip()` raises.
          .error (.attributeError "list object has no attribute strip")

/-- `parse_arguments(argstring, **defaults)`.  After the parsing loop the
source runs `for key, value in defaults.iteritems(): result[key] = value[1]`,
overwriting every parsed entry with its default. -/
def parse_arguments (argstring : Option String) (defaults : List ArgDefault) :
    Except PyError (List (String × ArgVal)) :=
  let rest := (argstring.getD "").toList
  match parseArgsLoop defaults (rest.length + 1) rest [] with
  | .error e => .error e
  | .ok result => .ok (defaults.foldl (fun res d => setKey d.key d.dflt res) result)

/-- Association-list lookup used for Python dict reads. -/
def lookupKey (k : String) : List (String × α) → Option α
  | [] => none
  | (k0, v) :: rest => if k0 = k then some v else lookupKey k rest

/-- Read an int option filled by `parse_arguments` (the key is always present
since the defaults loop fills every key; `0` is a junk fallback). -/
def getArgInt (opts : List (String × ArgVal)) (k : String) : Int :=
  match lookupKey k opts with
  | some (.aInt z) => z
  | _ => 0

/-- Read a bool option filled by `parse_arguments`. -/
def getArgBool (opts : List (String × ArgVal)) (k : String) : Bool :=
  match lookupKey k opts with
  | some (.aBool b) => b
  | _ => false

/-- Characters `urllib.quote` never escapes (Python 2 `always_safe`,
letters, digits and `_.-`). -/
def alwaysSafe (c : Char) : Bool := c.isAlpha || c.isDigit || c = '_' || c = '.' || c = '-'

/-- Upper-case hex digit. -/
def hexDigit (n : Nat) : Char :=
  if n < 10 then Char.ofNat ('0'.toNat + n) else Char.ofNat ('A'.toNat + (n - 10))

/-- UTF-8 bytes of one character (the `.encode(charset)` step with the
default `utf-8` charset). -/
def utf8Bytes (c : Char) : List Nat :=
  let n := c.toNat
  if n < 0x80 then [n]
  else if n < 0x800 then [0xC0 + n / 64, 0x80 + n % 64]
  else if n < 0x10000 then [0xE0 + n / 4096, 0x80 + (n / 64) % 64, 0x80 + n % 64]
  else [0xF0 + n / 262144, 0x80 + (n / 4096) % 64, 0x80 + (n / 64) % 64, 0x80 + n % 64]

/-- `urllib.quote_plus` on the UTF-8 encoding of a text: spaces become `+`,
safe characters stay, everything else is `%XX`-escaped per byte. -/
def quote_plus (s : String) : String :=
  String.mk (s.toList.flatMap fun c =>
    if c = ' ' then ['+']
    else if alwaysSafe c then [c]
    else (utf8Bytes c).flatMap fun b => ['%', hexDigit (b / 16), hexDigit (b % 16)])

/-- A converter instance as captured by a bound rule: the regex fragment it
contributes (a character class for the `+`-repetition, with `lazyQ` for a
non-greedy `+?`), `to_python` (raising `ValidationError`, the `Unit` error)
and `to_url`. -/
structure Converter where
  pred : Char → Bool
  lazyQ : Bool
  to_python : String → Except Unit Value
  to_url : Value → Except Unit String

/-- `BaseConverter.to_url`: `quote_plus(unicode(value).encode(charset))`. -/
def baseToUrl (v : Value) : Except Unit String := .ok (quote_plus (pyUnicode v))

/-- The `defaults` of `IntegerConverter.__init__`'s `parse_arguments` call. -/
def intDefaults : List ArgDefault :=
  [⟨"fixed_digits", .kInt, .aInt (-1)⟩, ⟨"min", .kInt, .aInt 0⟩, ⟨"max", .kInt, .aInt (-1)⟩]

/-- The bound state of an `IntegerConverter` (`self.fixed_digits`,
`self.min`, `self.max`). -/
structure IntOpts where
  fixed_digits : Int
  min : Option Int
  max : Option Int
deriving DecidableEq, Repr

/-- `IntegerConverter.__init__`: `self.min = options['min'] or None` (so a
parsed `0` becomes `None`), `self.max = None` exactly when `options['max']`
is `-1`. -/
def integerConverterOpts (args : Option String) : Except PyError IntOpts :=
  match parse_arguments args intDefaults with
  | .error e => .error e
  | .ok options =>
    let mn := getArgInt options "min"
    let mx := getArgInt options "max"
    .ok ⟨getArgInt options "fixed_digits",
      if mn = 0 then none else some mn,
      if mx = -1 then none else some mx⟩

/-- `IntegerConverter.to_python`.  The argument always matches `\d+` (it is a
capture of the rule regex), so `int(value)` is `digitsToNat`. -/
def intToPython (o : IntOpts) (value : String) : Except Unit Value :=
  if o.fixed_digits ≠ -1 ∧ (value.length : Int) ≠ o.fixed_digits then .error ()
  else
    let n : Int := digitsToNat value.toList
    if (match o.min with | some m => decide (n < m) | none => false) ||
       (match o.max with | some m => decide (n > m) | none => false) then .error ()
    else .ok (.vInt n)

/-- The `int` converter factory: regex `\d+` (greedy digit run). -/
def integerConverter (args : Option String) : Except PyError Converter :=
  match integerConverterOpts args with
  | .error e => .error e
  | .ok o => .ok ⟨Char.isDigit, false, intToPython o, baseToUrl⟩

/-- The `defaults` of `UnicodeConverter.__init__`'s `parse_arguments` call. -/
def strDefaults : List ArgDefault :=
  [⟨"minlength", .kInt, .aInt 0⟩, ⟨"maxlength", .kInt, .aInt (-1)⟩,
   ⟨"allow_slash", .kBool, .aBool false⟩]

/-- The bound state of a `UnicodeConverter`. -/
structure StrOpts where
  minlength : Option Int
  maxlength : Option Int
  allow_slash : Bool
deriving DecidableEq, Repr

/-- `UnicodeConverter.__init__`: `minlength or None`, `maxlength` of `-1`
becomes `None`, `allow_slash` switches the regex to `.+?`. -/
def unicodeConverterOpts (args : Option String) : Except PyError StrOpts :=
  match parse_arguments args strDefaults with
  | .error e => .error e
  | .ok options =>
    let mn := getArgInt options "minlength"
    let mx := getArgInt options "maxlength"
    .ok ⟨if mn = 0 then none else some mn,
      if mx = -1 then none else some mx,
      getArgBool options "allow_slash"⟩

/-- `UnicodeConverter.to_python`: length bounds checked on decode. -/
def strToPython (o : StrOpts) (value : String) : Except Unit Value :=
  if (match o.minlength with | some m => decide ((value.length : Int) < m) | none => false) ||
     (match o.maxlength with | some m => decide ((value.length : Int) > m) | none => false) then
    .error ()
  else .ok (.vStr value)

/-- The `string` / `default` converter factory: regex `[^/]+`, or the lazy
`.+?` (which in Python excludes the newline) under `allow_slash=true`. -/
def unicodeConverter (args : Option String) : Except PyError Converter :=
  match unicodeConverterOpts args with
  | .error e => .error e
  | .ok o =>
    if o.allow_slash then .ok ⟨(· ≠ '\n'), true, strToPython o, baseToUrl⟩
    else .ok ⟨(· ≠ '/'), false, strToPython o, baseToUrl⟩

/-- One token yielded by `parse_rule`: `(converter, arguments, variable)`
with `converter = None` for static parts. -/
inductive ParsedToken where
  | static (text : String)
  | dynamic (converter : String) (args : Option String) (var : String)
deriving DecidableEq, Repr

/-- First character class of a converter name in `_rule_re`
(`[a-zA-Z_]`). -/
def isConvStart (c : Char) : Bool := c.isAlpha || c = '_'

/-- Tail character class of converter and variable names
(`[a-zA-Z0-9_]`). -/
def isWordChar (c : Char) : Bool := c.isAlpha || c.isDigit || c = '_'

/-- First character class of a variable name (`[a-zA-Z]`). -/
def isVarStart (c : Char) : Bool := c.isAlpha

/-- Split off the maximal run satisfying `p` (a greedy character-class
repetition positioned before a character outside the class). -/
def takeRun (p : Char → Bool) (cs : List Char) : List Char × List Char :=
  (cs.takeWhile p, cs.dropWhile p)

/-- One successful `_rule_re.match`: the groups and the remaining input. -/
structure ReM where
  static : String
  converter : Option String
  args : Option String
  var : String
  rest : List Char
deriving DecidableEq, Repr

/-- Match `(?P<variable>[a-zA-Z][a-zA-Z0-9_]*)>` — variable name and closing
bracket. -/
def matchVarEnd : List Char → Option (String × List Char)
  | [] => none
  | c :: rest =>
    if isVarStart c then
      match takeRun isWordChar rest with
      | (run, '>' :: rest2) => some (String.mk (c :: run), rest2)
      | _ => none
    else none

/-- Match the optional group `(?P<converter>...)(?:\((?P<args>[^\)]*)\))?\:`
— converter name, optional parenthesised arguments, and the `:` delimiter.
The runs are maximal, and the character after each run decides the branch, so
no regex backtracking inside this group can succeed any other way. -/
def matchConvPart : List Char → Option (String × Option String × List Char)
  | [] => none
  | c :: rest =>
    if isConvStart c then
      let (run, rest1) := takeRun isWordChar rest
      let name := String.mk (c :: run)
      match rest1 with
      | '(' :: rest2 =>
        match takeRun (· ≠ ')') rest2 with
        | (argrun, ')' :: ':' :: rest3) => some (name, some (String.mk argrun), rest3)
        | _ => none
      | ':' :: rest2 => some (name, none, rest2)
      | _ => none
    else none

/-- `_rule_re.match(rule, pos)`: static run `[^<]*`, a literal `<`, then
either the converter group followed by the variable, or (backtracking over
the optional group) the bare variable. -/
def ruleReMatch (cs : List Char) : Option ReM :=
  let (staticRun, rest) := takeRun (· ≠ '<') cs
  match rest with
  | '<' :: rest1 =>
    (match matchConvPart rest1 with
     | some (name, args, rest2) =>
       match matchVarEnd rest2 with
       | some (v, rest3) => some ⟨String.mk staticRun, some name, args, v, rest3⟩
       | none =>
         -- the regex backtracks and retries with the optional group skipped
         match matchVarEnd rest1 with
         | some (v, rest3) => some ⟨String.mk staticRun, none, none, v, rest3⟩
         | none => none
     | none =>
       match matchVarEnd rest1 with
       | some (v, rest3) => some ⟨String.mk staticRun, none, none, v, rest3⟩
       | none => none)
  | _ => none

/-- `data['args'] or None`: an empty capture becomes `None`. -/
def normArgs : Option String → Option String
  | some "" => none
  | x => x

/-- The scanning loop of `parse_rule`.  Each regex match consumes at least
one character, so fuel `|cs| + 1` makes `outOfFuel` unreachable.  A failed
match breaks the loop: a remainder containing `<` or `>` is a malformed rule,
otherwise the remainder is one final static token. -/
def parseRuleLoop : Nat → List Char → List String → List ParsedToken →
    Except PyError (List ParsedToken)
  | 0, _, _, _ => .error .outOfFuel
  | fuel + 1, cs, used, acc =>
    match ruleReMatch cs with
    | none =>
      if cs.isEmpty then .ok acc.reverse
      else if cs.contains '>' || cs.contains '<' then .error .malformedRule
      else .ok (acc.reverse ++ [.static (String.mk cs)])
    | some m =>
      let acc1 := if m.static ≠ "" then .static m.static :: acc else acc
      let conv := m.converter.getD "default"
      if used.contains m.var then .error (.duplicateVariable m.var)
      else parseRuleLoop fuel m.rest (m.var :: used) (.dynamic conv (normArgs m.args) m.var :: acc1)

/-- `parse_rule(rule)`, with the generator run to a list (or to its
exception). -/
def parse_rule (rule : String) : Except PyError (List ParsedToken) :=
  parseRuleLoop (rule.toList.length + 1) rule.toList [] []

/-- The sequence of placeholder variable names the `parse_rule` scanner
yields, with the duplicate check disabled; used to state what "the same
variable name occurs in two placeholders" means for a pattern. -/
def scanNamesLoop : Nat → List Char → List String
  | 0, _ => []
  | fuel + 1, cs =>
    match ruleReMatch cs with
    | none => []
    | some m => m.var :: scanNamesLoop fuel m.rest

/-- The placeholder variable names of a pattern, in scan order. -/
def placeholderNames (rule : String) : List String :=
  scanNamesLoop (rule.toList.length + 1) rule.toList

/-- One element of a compiled rule regex `^<sub>...$`: a literal run, a named
capture of a `+`-repeated character class (`lazyQ` for `+?`), the optional
`(?P<__suffix__>/?)` capture, or the non-capturing `[^>]*` of a wildcard
subdomain. -/
inductive RToken where
  | lit (text : List Char)
  | cap (name : String) (pred : Char → Bool) (lazyQ : Bool)
  | capOpt (name : String) (pred : Char → Bool)
  | skipAll (pred : Char → Bool)

/-- The named captures of a regex match, in group order. -/
abbrev Caps := List (String × String)

/-- Consume a literal: `leadEq t cs = some rest` iff `cs = t ++ rest`. -/
def leadEq : List Char → List Char → Option (List Char)
  | [], cs => some cs
  | _ :: _, [] => none
  | l :: ls, c :: cs => if c = l then leadEq ls cs else none

/-- First success of `f` over a list of candidate lengths (the backtracking
order of a regex quantifier). -/
def firstSome (f : Nat → Option β) : List Nat → Option β
  | [] => none
  | k :: ks =>
    match f k with
    | some r => some r
    | none => firstSome f ks

/-- Anchored match of a token list against the whole input, following the
backtracking order of Python's `re` on these patterns: a greedy `+` tries the
longest prefix of the maximal class run first, a lazy `+?` the shortest, the
greedy `?` presence first, and earlier groups backtrack last.  Every
recursive call pops one token, so fuel `|tokens| + 1` is always enough. -/
def reMatchFuel : Nat → List RToken → List Char → Option Caps
  | 0, _, _ => none
  | _ + 1, [], cs => if cs.isEmpty then some [] else none
  | fuel + 1, .lit t :: ts, cs =>
    match leadEq t cs with
    | some rest => reMatchFuel fuel ts rest
    | none => none
  | fuel + 1, .cap name p lz :: ts, cs =>
    let run := (cs.takeWhile p).length
    let cands := if lz then List.range' 1 run else (List.range' 1 run).reverse
    firstSome (fun k => (reMatchFuel fuel ts (cs.drop k)).map
      (fun caps => (name, String.mk (cs.take k)) :: caps)) cands
  | fuel + 1, .capOpt name p :: ts, cs =>
    let run := (cs.takeWhile p).length
    let cands := if run = 0 then [0] else [1, 0]
    firstSome (fun k => (reMatchFuel fuel ts (cs.drop k)).map
      (fun caps => (name, String.mk (cs.take k)) :: caps)) cands
  | fuel + 1, .skipAll p :: ts, cs =>
    let run := (cs.takeWhile p).length
    firstSome (fun k => reMatchFuel fuel ts (cs.drop k)) ((List.range' 0 (run + 1)).reverse)

/-- `self._regex.search(path)` for the anchored rule regex. -/
def reMatch (ts : List RToken) (cs : List Char) : Option Caps :=
  reMatchFuel (ts.length + 1) ts cs

/-- `groups.pop(k)`: the popped value and the remaining mapping, `none` when
the key is absent (Python would raise `KeyError`). -/
def popKey (k : String) : Caps → Option (String × Caps)
  | [] => none
  | (n, v) :: rest =>
    if n = k then some (v, rest)
    else (popKey k rest).map (fun p => (p.1, (n, v) :: p.2))

/-- A rule bound to a map (the state `Rule.bind` computes).  `regIndex` is
the registration position, standing in for Python object identity so that
theorems can talk about which of several equal-looking rules was selected. -/
structure BoundRule where
  rule : String
  endpoint : String
  subdomain : String
  strict_slashes : Bool
  is_leaf : Bool
  regIndex : Nat
  tokens : List RToken
  trace : List (Bool × String)
  converters : List (String × Converter)
  arguments : List String

/-- `sys.maxint` of a 64-bit CPython 2. -/
def maxint : Int := 2 ^ 63 - 1

/-- `Rule.complexity`: the number of arguments, pushed below everything by
`-sys.maxint` for wildcard-subdomain rules. -/
def BoundRule.complexity (r : BoundRule) : Int :=
  if r.subdomain = "ALL" then -maxint + (r.arguments.length : Int)
  else (r.arguments.length : Int)

/-- The result of one `Rule.match` attempt: no match, the `RequestSlash`
signal, or the converted variable mapping. -/
inductive RuleMatch where
  | noMatch
  | requestSlash
  | matched (vars : List (String × Value))
deriving DecidableEq

/-- The part of `Rule.match` before conversion: regex failure, the
`RequestSlash` condition, or the capture mapping handed to the converters
(after popping `__suffix__` when strict slashes apply). -/
inductive PreDecode where
  | noRe
  | slash
  | decode (groups : Caps)
deriving DecidableEq

/-- `Rule.match` up to the conversion loop.  Note the short-circuit: the
suffix group is popped only when `strict_slashes and not is_leaf`; a missing
group would raise `KeyError`. -/
def BoundRule.preDecode (r : BoundRule) (key : List Char) : Except PyError PreDecode :=
  match reMatch r.tokens key with
  | none => .ok .noRe
  | some groups =>
    if r.strict_slashes ∧ ¬ r.is_leaf then
      match popKey "__suffix__" groups with
      | none => .error (.keyError "__suffix__")
      | some (sfx, rest) =>
        if sfx = "" then .ok .slash else .ok (.decode rest)
    else .ok (.decode groups)

/-- The conversion loop of `Rule.match`: each capture is decoded with its
converter; a missing converter raises `KeyError`; a `ValidationError`
(`.ok none`) makes the whole attempt report no match. -/
def convertGroups (convs : List (String × Converter)) :
    Caps → Except PyError (Option (List (String × Value)))
  | [] => .ok (some [])
  | (n, t) :: rest =>
    match lookupKey n convs with
    | none => .error (.keyError n)
    | some c =>
      match c.to_python t with
      | .error _ => .ok none
      | .ok v =>
        match convertGroups convs rest with
        | .error e => .error e
        | .ok none => .ok none
        | .ok (some vs) => .ok (some ((n, v) :: vs))

/-- `Rule.match(path)`. -/
def BoundRule.matchKey (r : BoundRule) (key : List Char) : Except PyError RuleMatch :=
  match r.preDecode key with
  | .error e => .error e
  | .ok .noRe => .ok .noMatch
  | .ok .slash => .ok .requestSlash
  | .ok (.decode groups) =>
    match convertGroups r.converters groups with
    | .error e => .error e
    | .ok none => .ok .noMatch
    | .ok (some vs) => .ok (.matched vs)

/-- The replay loop of `Rule.build`: statics verbatim, dynamics through
`to_url` (a missing converter or value raises `KeyError`, a
`ValidationError` turns the whole build into `None`). -/
def buildTrace (convs : List (String × Converter)) (values : List (String × Value)) :
    List (Bool × String) → Except PyError (Option String)
  | [] => .ok (some "")
  | (false, s) :: rest =>
    match buildTrace convs values rest with
    | .error e => .error e
    | .ok none => .ok none
    | .ok (some tail) => .ok (some (s ++ tail))
  | (true, n) :: rest =>
    match lookupKey n convs with
    | none => .error (.keyError n)
    | some c =>
      match lookupKey n values with
      | none => .error (.keyError n)
      | some v =>
        match c.to_url v with
        | .error _ => .ok none
        | .ok piece =>
          match buildTrace convs values rest with
          | .error e => .error e
          | .ok none => .ok none
          | .ok (some tail) => .ok (some (piece ++ tail))

/-- `Rule.build(values)`. -/
def BoundRule.build (r : BoundRule) (values : List (String × Value)) :
    Except PyError (Option String) :=
  buildTrace r.converters values r.trace

/-- The constructor arguments of `Rule(string, subdomain, endpoint,
strict_slashes)`; `none` means the map default is inherited at bind time. -/
structure RuleSpec where
  string : String
  subdomain : Option String
  endpoint : String
  strict_slashes : Option Bool
deriving DecidableEq, Repr

/-- `Rule.__init__`: the leading-slash check, and the trailing-slash
stripping that decides `is_leaf`. -/
def ruleInitText (string : String) : Except PyError (Bool × String) :=
  if ¬ pyStartsSlash string then .error (.valueError "urls must start with a leading slash")
  else if pyEndsSlash string then .ok (false, String.mk (rstripSlash string.toList))
  else .ok (true, string)

/-- A converter registry: `Map.converters`, extensible by callers. -/
abbrev Registry := List (String × (Option String → Except PyError Converter))

/-- The built-in registry `{'int': ..., 'string': ..., 'default': ...}`. -/
def builtinConverters : Registry :=
  [("int", integerConverter), ("string", unicodeConverter), ("default", unicodeConverter)]

/-- The map-wide configuration a rule is bound against. -/
structure MapParams where
  server_name : String
  default_subdomain : String
  url_scheme : String
  strict_slashes : Bool
  converters : Registry

/-- The default `Map(...)` keyword arguments. -/
def defaultParams (server : String) : MapParams :=
  ⟨server, "www", "http", true, builtinConverters⟩

/-- The regex head `^<subdomain>` — an escaped literal subdomain, or
`<[^>]*>` for the wildcard `"ALL"`. -/
def headTokens (sub : String) : List RToken :=
  if sub = "ALL" then [.lit ['<'], .skipAll (· ≠ '>'), .lit ['>']]
  else [.lit ('<' :: sub.toList ++ ['>'])]

/-- The per-token loop body of `Rule.bind`: regex parts, the build trace, the
converter mapping and the argument set, in pattern order. -/
def bindParts (reg : Registry) :
    List ParsedToken →
    Except PyError (List RToken × List (Bool × String) × List (String × Converter) × List String)
  | [] => .ok ([], [], [], [])
  | .static s :: rest =>
    match bindParts reg rest with
    | .error e => .error e
    | .ok (tk, tr, cv, ar) => .ok (.lit s.toList :: tk, (false, s) :: tr, cv, ar)
  | .dynamic conv args v :: rest =>
    match lookupKey conv reg with
    | none => .error (.keyError conv)
    | some factory =>
      match factory args with
      | .error e => .error e
      | .ok c =>
        match bindParts reg rest with
        | .error e => .error e
        | .ok (tk, tr, cv, ar) =>
          .ok (.cap v c.pred c.lazyQ :: tk, (true, v) :: tr, (v, c) :: cv, v :: ar)

/-- `Rule.__init__` followed by `Rule.bind(map)`: defaults resolved from the
map, the pattern parsed, and the matcher, trace, converters and argument set
assembled.  A non-leaf rule gets the trailing `(?P<__suffix__>/?)` capture
and a trailing `/` trace entry.  `regIndex` is filled in by `mkMap`. -/
def bindRule (p : MapParams) (spec : RuleSpec) : Except PyError BoundRule :=
  match ruleInitText spec.string with
  | .error e => .error e
  | .ok (leaf, text) =>
    let strict := spec.strict_slashes.getD p.strict_slashes
    let sub := spec.subdomain.getD p.default_subdomain
    match parse_rule text with
    | .error e => .error e
    | .ok parsed =>
      match bindParts p.converters parsed with
      | .error e => .error e
      | .ok (tk, tr, cv, ar) =>
        .ok ⟨text, spec.endpoint, sub, strict, leaf, 0,
          headTokens sub ++ tk ++ (if leaf then [] else [.capOpt "__suffix__" (· = '/')]),
          tr ++ (if leaf then [] else [(false, "/")]),
          cv, ar⟩

/-- A route table: the map-wide attributes and the bound rules in
registration order (`Map._rules` before sorting). -/
structure Map where
  server_name : String
  default_subdomain : String
  url_scheme : String
  strict_slashes : Bool
  converters : Registry
  rules : List BoundRule

/-- Bind every rule spec in order (`Map.__init__` calling `add_rule`). -/
def bindAll (p : MapParams) : List RuleSpec → Except PyError (List BoundRule)
  | [] => .ok []
  | s :: rest =>
    match bindRule p s with
    | .error e => .error e
    | .ok r =>
      match bindAll p rest with
      | .error e => .error e
      | .ok rs => .ok (r :: rs)

/-- `Map(rules, ...)`: bind all rules and stamp their registration index. -/
def mkMap (specs : List RuleSpec) (p : MapParams) : Except PyError Map :=
  match bindAll p specs with
  | .error e => .error e
  | .ok rs =>
    .ok ⟨p.server_name, p.default_subdomain, p.url_scheme, p.strict_slashes, p.converters,
      (rs.enum.map fun ri => { ri.2 with regIndex := ri.1 })⟩

/-- The comparator of `Rule.__cmp__` as a ≤ test: `cmp(other.complexity,
self.complexity)` sorts by descending complexity. -/
def ruleLe (a b : BoundRule) : Bool := decide (b.complexity ≤ a.complexity)

/-- Insert in front of the first element not allowed before `x`; together
with `stableSort` this is a stable sort, which is what CPython's `list.sort`
guarantees — and a stable sort by one total preorder is unique, so any
faithful model computes this list. -/
def insertStable (le : α → α → Bool) (x : α) : List α → List α
  | [] => [x]
  | y :: ys => if le x y then x :: y :: ys else y :: insertStable le x ys

/-- Stable sort (`self._rules.sort()` under `Rule.__cmp__`). -/
def stableSort (le : α → α → Bool) : List α → List α
  | [] => []
  | x :: xs => insertStable le x (stableSort le xs)

/-- The rules in the order `Map.match` and `Map.build` scan them. -/
def Map.sortedRules (m : Map) : List BoundRule := stableSort ruleLe m.rules

/-- The combined key `'<%s>/%s' % (subdomain, path_info.lstrip('/'))`. -/
def mkKey (sub path_info : String) : List Char :=
  '<' :: sub.toList ++ ['>', '/'] ++ lstripSlash path_info.toList

/-- `if not script_name.endswith('/'): script_name += '/'`. -/
def scriptNorm (script : String) : String :=
  if pyEndsSlash script then script else script ++ "/"

/-- The `RequestRedirect` URL `'%s://%s%s%s/%s/' % (scheme, subdomain and
subdomain + '.' or '', server_name, script_name[:-1],
path_info.lstrip('/'))`. -/
def redirectUrl (m : Map) (sub script path_info : String) : String :=
  m.url_scheme ++ "://" ++ (if sub = "" then "" else sub ++ ".") ++ m.server_name ++
    (scriptNorm script).dropRight 1 ++ "/" ++ String.mk (lstripSlash path_info.toList) ++ "/"

/-- The outcome of `Map.match`: a result, a `RequestRedirect`, or
`NotFound(path_info)`. -/
inductive MatchOutcome where
  | found (endpoint : String) (vars : List (String × Value))
  | redirect (url : String)
  | notFound (path_info : String)
deriving DecidableEq

/-- The rule scan outcome, keeping hold of the selected rule (for the
specification only; `Map.match` forgets it). -/
inductive ScanResult where
  | selected (r : BoundRule) (vars : List (String × Value))
  | slash (r : BoundRule)
  | exhausted

/-- The scan loop of `Map.match`: first success or `RequestSlash` wins. -/
def scanRules (key : List Char) : List BoundRule → Except PyError ScanResult
  | [] => .ok .exhausted
  | r :: rs =>
    match r.matchKey key with
    | .error e => .error e
    | .ok .noMatch => scanRules key rs
    | .ok .requestSlash => .ok (.slash r)
    | .ok (.matched vs) => .ok (.selected r vs)

/-- `Map.match` down to the selected rule. -/
def Map.matchSel (m : Map) (path_info : String) (sub : Option String) :
    Except PyError ScanResult :=
  scanRules (mkKey (sub.getD m.default_subdomain) path_info) m.sortedRules

/-- `Map.match(path_info, script_name, subdomain)`.  The `path_info`
charset-decoding step is the identity here (inputs are already text). -/
def Map.matchUrl (m : Map) (path_info script : String) (sub : Option String) :
    Except PyError MatchOutcome :=
  let subdomain := sub.getD m.default_subdomain
  match m.matchSel path_info sub with
  | .error e => .error e
  | .ok (.selected r vs) => .ok (.found r.endpoint vs)
  | .ok (.slash _) => .ok (.redirect (redirectUrl m subdomain script path_info))
  | .ok .exhausted => .ok (.notFound path_info)

/-- Python `str.split('/')`: at least one piece, empty pieces around each
separator. -/
def splitSlash : List Char → List (List Char)
  | [] => [[]]
  | c :: rest =>
    if c = '/' then [] :: splitSlash rest
    else
      match splitSlash rest with
      | s :: ss => (c :: s) :: ss
      | [] => [[c]]

/-- `'/'.join(segments)`. -/
def joinSlash : List (List Char) → List Char
  | [] => []
  | [s] => s
  | s :: rest => s ++ '/' :: joinSlash rest

/-- `if segments[-1] == '.': segments[-1] = ''` of `urljoin`. -/
def dotLastToEmpty (segs : List (List Char)) : List (List Char) :=
  if segs.getLast? = some ['.'] then segs.dropLast ++ [[]] else segs

/-- One round of `urljoin`'s `..`-collapsing scan: find the first interior
position `i ≥ 1` (never the last segment) holding `".."` whose predecessor
is neither `""` nor `".."`, and delete both (`del segments[i-1:i+1]`);
`none` when no such position exists. -/
def collapseOnce : List (List Char) → Option (List (List Char))
  | a :: b :: c :: rest =>
    if b = ['.', '.'] ∧ a ≠ [] ∧ a ≠ ['.', '.'] then some (c :: rest)
    else (collapseOnce (b :: c :: rest)).map (fun ss => a :: ss)
  | _ => none

/-- `urljoin`'s outer `while 1` loop: repeat the scan until no deletion
applies; each deletion removes two segments, so fuel `|segs| + 1` is always
enough. -/
def collapseAll : Nat → List (List Char) → List (List Char)
  | 0, segs => segs
  | fuel + 1, segs =>
    match collapseOnce segs with
    | some segs2 => collapseAll fuel segs2
    | none => segs

/-- The two final fixups of `urljoin`: `['', '..']` becomes `['', '']`, and
a trailing `'..'` swallows the segment before it
(`segments[-2:] = ['']`). -/
def finalDots (segs : List (List Char)) : List (List Char) :=
  if segs = [[], ['.', '.']] then [[], []]
  else if 2 ≤ segs.length ∧ segs.getLast? = some ['.', '.'] then
    (segs.dropLast).dropLast ++ [[]]
  else segs

/-- `urlparse.urljoin(base, url)` (Python 2) for the arguments `Map.build`
passes: `base` is the normalised `script_name` and `url` is
`rv.lstrip('/')`.  Modelled for references without a scheme, netloc,
parameters, query or fragment — i.e. neither string contains `':'`, `';'`,
`'?'` or `'#'`, the delimiters `urlparse` would split on (the round-trip
theorem discloses this as a hypothesis); within that scope `urlparse` is
path-only and `urljoin` is exactly the segment algorithm reproduced here:
empty inputs fall back to the other argument, an absolute reference wins,
otherwise `bpath.split('/')[:-1] + path.split('/')` is processed by the
`'.'` removal, the `'..'` collapse loop and the trailing fixups, and
rejoined with `'/'`. -/
def pyUrljoin (base url : String) : String :=
  if base = "" then url
  else if url = "" then base
  else if pyStartsSlash url then url
  else
    let segs0 := (splitSlash base.toList).dropLast ++ splitSlash url.toList
    let segs1 := (dotLastToEmpty segs0).filter (fun s => s ≠ ['.'])
    String.mk (joinSlash (finalDots (collapseAll (segs1.length + 1) segs1)))

/-- The outcome of `Map.build`: a URL, `NotFound(endpoint)` when no rule is
registered for the endpoint, or `NotFound(endpoint, values)` when no
candidate fits the value set. -/
inductive BuildOutcome where
  | url (u : String)
  | notFoundEndpoint (endpoint : String)
  | notFoundValues (endpoint : String) (values : List (String × Value))
deriving DecidableEq

/-- Python set equality of name lists (`rule._arguments == valueset`). -/
def setEqStr (a b : List String) : Bool := a.all (b.contains ·) && b.all (a.contains ·)

/-- `self._rules_by_endpoint.get(endpoint)`: the per-endpoint candidate list
in registration order. -/
def Map.candidates (m : Map) (endpoint : String) : List BoundRule :=
  m.rules.filter (fun r => r.endpoint = endpoint)

/-- The candidate loop of `Map.build`: the first rule (in the given
iteration order) whose argument set equals the value key set and whose
`build` succeeds. -/
def buildScan (values : List (String × Value)) :
    List BoundRule → Except PyError (Option (BoundRule × String))
  | [] => .ok none
  | r :: rs =>
    if setEqStr r.arguments (values.map (fun x => x.1)) then
      match r.build values with
      | .error e => .error e
      | .ok (some rv) => .ok (some (r, rv))
      | .ok none => buildScan values rs
    else buildScan values rs

/-- `Map.build(endpoint, values, script_name, subdomain, force_external)`.
The source iterates `set(self._rules_by_endpoint.get(endpoint) or ())`, and
CPython's iteration order over a set of objects is unspecified, so the order
is the parameter `order`; theorems quantify over, or pick, permutations of
`m.candidates endpoint`.  The final `urljoin(script_name, rv.lstrip('/'))`
is `pyUrljoin`, with the scope disclosed there. -/
def Map.buildWith (m : Map) (order : List BoundRule) (endpoint : String)
    (values : List (String × Value)) (script : String) (sub : Option String)
    (force_external : Bool) : Except PyError BuildOutcome :=
  let subdomain := sub.getD m.default_subdomain
  let script := scriptNorm script
  if (m.candidates endpoint).isEmpty then .ok (.notFoundEndpoint endpoint)
  else
    match buildScan values order with
    | .error e => .error e
    | .ok none => .ok (.notFoundValues endpoint values)
    | .ok (some (r, rv)) =>
      if ¬ force_external ∧ r.subdomain = subdomain then
        .ok (.url (pyUrljoin script (String.mk (lstripSlash rv.toList))))
      else
        .ok (.url (m.url_scheme ++ "://" ++ r.subdomain ++ "." ++ m.server_name ++
          script.dropRight 1 ++ "/" ++ String.mk (lstripSlash rv.toList)))

/-! Specification-side views of a compiled rule, used to state and prove the
round-trip and error-handling claims.  They re-expose the structure `bind`
gives a rule; nothing below is part of the embedded program. -/

/-- One pattern part as `bind` sees it: a literal, or a variable with its
converter instance. -/
inductive PToken where
  | pstatic (s : String)
  | pdyn (name : String) (c : Converter)

/-- The regex parts a part list contributes. -/
def partsToTokens : List PToken → List RToken
  | [] => []
  | .pstatic s :: rest => .lit s.toList :: partsToTokens rest
  | .pdyn n c :: rest => .cap n c.pred c.lazyQ :: partsToTokens rest

/-- The build trace a part list contributes. -/
def partsToTrace : List PToken → List (Bool × String)
  | [] => []
  | .pstatic s :: rest => (false, s) :: partsToTrace rest
  | .pdyn n _ :: rest => (true, n) :: partsToTrace rest

/-- The converter mapping a part list contributes. -/
def partsConvs : List PToken → List (String × Converter)
  | [] => []
  | .pstatic _ :: rest => partsConvs rest
  | .pdyn n c :: rest => (n, c) :: partsConvs rest

/-- The variable names of a part list, in order. -/
def dynNames : List PToken → List String
  | [] => []
  | .pstatic _ :: rest => dynNames rest
  | .pdyn n _ :: rest => n :: dynNames rest

/-- A bound rule with the shape `bind` produces for a literal (non-`"ALL"`)
subdomain: matcher, trace, converters and argument set all generated from one
part list, with distinct variable names none of which is the reserved
`__suffix__`. -/
def RuleWF (r : BoundRule) : Prop :=
  ∃ parts : List PToken,
    r.tokens = RToken.lit ('<' :: r.subdomain.toList ++ ['>']) ::
      (partsToTokens parts ++
        (if r.is_leaf then [] else [RToken.capOpt "__suffix__" (· = '/')])) ∧
    r.trace = partsToTrace parts ++ (if r.is_leaf then [] else [(false, "/")]) ∧
    r.converters = partsConvs parts ∧
    r.arguments = dynNames parts ∧
    (dynNames parts).Nodup ∧
    "__suffix__" ∉ dynNames parts

/-- Reassemble the input a token list consumed from its captures (defined
for skip-free token lists). -/
def flatten : List RToken → Caps → Option (List Char)
  | [], [] => some []
  | [], _ :: _ => none
  | .lit t :: ts, caps => (flatten ts caps).map (t ++ ·)
  | .cap n _ _ :: ts, (n0, t) :: caps =>
    if n0 = n then (flatten ts caps).map (t.toList ++ ·) else none
  | .cap _ _ _ :: _, [] => none
  | .capOpt n _ :: ts, (n0, t) :: caps =>
    if n0 = n then (flatten ts caps).map (t.toList ++ ·) else none
  | .capOpt _ _ :: _, [] => none
  | .skipAll _ :: _, _ => none

/-- The structural facts a capture list inherits from its token list: names
in group order, a `+`-capture is a nonempty run of its class, a `?`-capture
has at most one character of its class. -/
def capsFit : List RToken → Caps → Bool
  | [], [] => true
  | [], _ :: _ => false
  | .lit _ :: ts, caps => capsFit ts caps
  | .cap n p _ :: ts, (n0, t) :: caps =>
    n0 == n && !t.toList.isEmpty && t.toList.all p && capsFit ts caps
  | .cap _ _ _ :: _, [] => false
  | .capOpt n p :: ts, (n0, t) :: caps =>
    n0 == n && decide (t.toList.length ≤ 1) && t.toList.all p && capsFit ts caps
  | .capOpt _ _ :: _, [] => false
  | .skipAll _ :: _, _ => false

/-- Token lists without the non-capturing wildcard-subdomain run. -/
def skipFree : List RToken → Bool
  | [] => true
  | .skipAll _ :: _ => false
  | _ :: ts => skipFree ts

/-! Concrete fixtures for the witness theorems. -/

/-- A placeholder map for total extraction from `Except`. -/
def emptyMap : Map := ⟨"", "www", "http", true, [], []⟩

/-- Extract a successfully constructed map. -/
def mustMap : Except PyError Map → Map
  | .ok m => m
  | .error _ => emptyMap

/-- A placeholder rule for total extraction from `Except`. -/
def junkRule : BoundRule := ⟨"", "", "", true, true, 0, [], [], [], []⟩

/-- Extract a successfully bound rule. -/
def mustRule : Except PyError BoundRule → BoundRule
  | .ok r => r
  | .error _ => junkRule

/-- Two rules for one endpoint with equal argument sets: the fixture of the
build-order claim. -/
def mapC2 : Map :=
  mustMap (mkMap [⟨"/a/<int:n>", none, "x", none⟩, ⟨"/b/<int:n>", none, "x", none⟩]
    (defaultParams "s"))

/-- One rule with a two-variable argument set: the fixture of the
subset/superset claim. -/
def mapC3 : Map :=
  mustMap (mkMap [⟨"/a/<int:x>/<int:y>", none, "e", none⟩] (defaultParams "s"))

/-- A one-variable rule: fixture of the specificity claim. -/
def mapC4 : Map :=
  mustMap (mkMap [⟨"/w/<int:q>", none, "e", none⟩] (defaultParams "s"))

/-- The knowledge-base rule of the module doctest: fixture of the redirect
claim. -/
def mapC5 : Map :=
  mustMap (mkMap [⟨"/browse/<int:id>/", some "kb", "kb/browse", none⟩]
    (defaultParams "example.com"))

/-- Overlapping int rules on which the match/build round trip fails: after
matching `/x/042` against the second rule, the rebuilt canonical path
`/x/42` is captured by the first. -/
def mapC6 : Map :=
  mustMap (mkMap [⟨"/x/4<int:a>", none, "e1", none⟩, ⟨"/x/<int:b>", none, "e2", none⟩]
    (defaultParams "s"))

/-- A single int rule on which the round trip does hold: fixture of the
amended round-trip claim. -/
def mapC6w : Map :=
  mustMap (mkMap [⟨"/x/<int:a>", none, "e", none⟩] (defaultParams "s"))

/-- A custom converter whose decode and encode always raise
`ValidationError` (the registry is extensible; the built-in converters can
no longer fail validation because `parse_arguments` discards their bounds,
see the C1 theorem). -/
def rejectConv : Converter := ⟨(· ≠ '/'), false, fun _ => .error (), fun _ => .error ()⟩

/-- Map parameters whose registry adds the always-failing converter. -/
def paramsC7 : MapParams :=
  ⟨"s", "www", "http", true, ("reject", fun _ => .ok rejectConv) :: builtinConverters⟩

/-- A rule using the always-failing converter: fixture of the
validation-skip claim. -/
def ruleC7 : BoundRule := mustRule (bindRule paramsC7 ⟨"/x/<reject:v>", none, "e", none⟩)

/-- The rule spec registered twice in the tie-break fixture. -/
def specC9 : RuleSpec := ⟨"/t/<int:k>", none, "e", none⟩

/-- The tie-break fixture map: the same spec registered twice. -/
def mapC9 : Map := mustMap (mkMap [specC9, specC9] (defaultParams "s"))

/-- The rule bound from the tie-break spec (registration index 0). -/
def ruleC9 : BoundRule := mustRule (bindRule (defaultParams "s") specC9)

/-! Theorems.  Helper lemmas first, then one theorem (plus witness or
counterexample) per claim. -/

theorem toList_append (a b : String) : (a ++ b).toList = a.toList ++ b.toList := rfl

theorem dropWhile_slash_replicate (n : Nat) (x : List Char) :
    List.dropWhile (fun c => c = '/') (List.replicate n '/' ++ x) =
      List.dropWhile (fun c => c = '/') x := by
  induction n with
  | zero => rfl
  | succ k ih => simpa [List.replicate_succ, List.dropWhile] using ih

theorem rstripSlash_append_replicate (l : List Char) (n : Nat) :
    rstripSlash (l ++ List.replicate n '/') = rstripSlash l := by
  unfold rstripSlash
  rw [List.reverse_append, List.reverse_replicate, dropWhile_slash_replicate]

theorem pyStartsSlash_append (p q : String) (h : pyStartsSlash p = true) :
    pyStartsSlash (p ++ q) = true := by
  unfold pyStartsSlash at h ⊢
  rw [toList_append]
  cases hp : p.toList with
  | nil => rw [hp] at h; exact absurd h (by simp)
  | cons c t =>
    rw [hp] at h
    simp only [List.cons_append]
    simpa using h

theorem pyEndsSlash_append_replicate (p : String) (n : Nat) (h : 1 ≤ n) :
    pyEndsSlash (p ++ String.mk (List.replicate n '/')) = true := by
  unfold pyEndsSlash
  rw [toList_append]
  show (match (p.toList ++ (String.mk (List.replicate n '/')).toList).reverse with
    | c :: _ => c = '/' | [] => false) = true
  have : (String.mk (List.replicate n '/')).toList = List.replicate n '/' := rfl
  rw [this, List.reverse_append, List.reverse_replicate]
  cases n with
  | zero => omega
  | succ k => simp [List.replicate_succ]

/-- C10: a rule pattern with any positive number of trailing slashes is
stripped to the same stored text and the same (non-leaf) `is_leaf` flag as
the pattern with exactly one trailing slash: `Rule.__init__` uses
`rstrip('/')`, which removes them all. -/
theorem trailing_slashes_all_stripped (p : String) (n : Nat)
    (h1 : 1 ≤ n) (h2 : pyStartsSlash p = true) :
    ruleInitText (p ++ String.mk (List.replicate n '/')) = ruleInitText (p ++ "/") := by
  have hs1 : pyStartsSlash (p ++ String.mk (List.replicate n '/')) = true :=
    pyStartsSlash_append _ _ h2
  have hs2 : pyStartsSlash (p ++ "/") = true := pyStartsSlash_append _ _ h2
  have he1 : pyEndsSlash (p ++ String.mk (List.replicate n '/')) = true :=
    pyEndsSlash_append_replicate p n h1
  have he2 : pyEndsSlash (p ++ "/") = true := by
    have : ("/" : String) = String.mk (List.replicate 1 '/') := rfl
    rw [this]; exact pyEndsSlash_append_replicate p 1 (by omega)
  have hr1 : rstripSlash (p ++ String.mk (List.replicate n '/')).toList =
      rstripSlash p.toList := by
    rw [toList_append]; exact rstripSlash_append_replicate _ n
  have hr2 : rstripSlash (p ++ "/").toList = rstripSlash p.toList := by
    rw [toList_append]
    have h : ("/" : String).toList = List.replicate 1 '/' := rfl
    rw [h]; exact rstripSlash_append_replicate _ 1
  have e1 : ruleInitText (p ++ String.mk (List.replicate n '/')) =
      .ok (false, String.mk (rstripSlash (p ++ String.mk (List.replicate n '/')).toList)) := by
    unfold ruleInitText; rw [hs1, he1]; simp
  have e2 : ruleInitText (p ++ "/") =
      .ok (false, String.mk (rstripSlash (p ++ "/").toList)) := by
    unfold ruleInitText; rw [hs2, he2]; simp
  rw [e1, e2, hr1, hr2]

/-- Witness for C10 at `p = "/browse"`, `n = 3`. -/
theorem trailing_slashes_all_stripped_witness :
    1 ≤ 3 ∧ pyStartsSlash "/browse" = true ∧
      ruleInitText ("/browse" ++ String.mk (List.replicate 3 '/')) =
        ruleInitText ("/browse" ++ "/") :=
  ⟨by decide, by decide, trailing_slashes_all_stripped "/browse" 3 (by decide) (by decide)⟩

/-- C1 (a code bug): the spec says `min`/`max` arguments configure the int
converter's decode bounds, but `parse_arguments` is doubly broken.  For the
argument string `"min=3"` the comma split leaves `value` bound to a list and
`value.strip()` raises `AttributeError`, so the converter cannot be
constructed at all; for `"min=3,"` (which parses) the trailing
`result[key] = value[1]` defaults loop overwrites the parsed `min` back to
its default, so the constructed converter has no bounds and decodes `"1"`
successfully — while a converter that honoured `min=3` would reject it. -/
theorem int_converter_bounds_lost :
    integerConverterOpts (some "min=3") =
      .error (.attributeError "list object has no attribute strip") ∧
    integerConverterOpts (some "min=3,") = .ok ⟨-1, none, none⟩ ∧
    intToPython ⟨-1, none, none⟩ "1" = .ok (.vInt 1) ∧
    intToPython ⟨-1, some 3, none⟩ "1" = .error () :=
  ⟨rfl, rfl, rfl, rfl⟩

theorem buildScan_none_of_no_match (values : List (String × Value)) (L : List BoundRule)
    (h : ∀ r ∈ L, setEqStr r.arguments (values.map (fun x => x.1)) = false) :
    buildScan values L = .ok none := by
  induction L with
  | nil => rfl
  | cons r rs ih =>
    have hr := h r (List.mem_cons_self r rs)
    simp only [buildScan, hr]
    exact ih (fun s hs => h s (List.mem_cons_of_mem r hs))

/-- C3: when no candidate rule's argument set equals the supplied key set —
in particular when the keys are a strict subset or superset of a registered
rule's variables — `Map.build` reports `NotFound(endpoint, values)`,
whatever order the candidate set is iterated in. -/
theorem build_notfound_on_subset_or_superset
    (m : Map) (e : String) (r : BoundRule) (values : List (String × Value))
    (order : List BoundRule) (script : String) (sub : Option String) (force : Bool)
    (hr : r ∈ m.candidates e)
    (hss : ((values.map (fun x => x.1)) ⊆ r.arguments ∧
              ¬ r.arguments ⊆ (values.map (fun x => x.1))) ∨
           (r.arguments ⊆ (values.map (fun x => x.1)) ∧
              ¬ (values.map (fun x => x.1)) ⊆ r.arguments))
    (hall : ∀ s ∈ m.candidates e, setEqStr s.arguments (values.map (fun x => x.1)) = false)
    (hperm : order.Perm (m.candidates e)) :
    m.buildWith order e values script sub force = .ok (.notFoundValues e values) := by
  have hne : (m.candidates e).isEmpty = false := by
    cases hc : m.candidates e with
    | nil => rw [hc] at hr; exact absurd hr (List.not_mem_nil r)
    | cons a l => simp [List.isEmpty]
  have hscan : buildScan values order = .ok none :=
    buildScan_none_of_no_match values order
      (fun s hs => hall s (hperm.subset hs))
  simp only [Map.buildWith, hne, Bool.false_eq_true, if_false, hscan]

/-- Witness for C3: one rule with variables `{x, y}`, values supplying only
`{x}` (a strict subset). -/
theorem build_notfound_witness :
    mapC3.buildWith (mapC3.candidates "e") "e" [("x", .vInt 1)] "/" none false =
      .ok (.notFoundValues "e" [("x", .vInt 1)]) := by
  refine build_notfound_on_subset_or_superset mapC3 "e" ((mapC3.candidates "e").headD junkRule)
    [("x", .vInt 1)] (mapC3.candidates "e") "/" none false ?_ ?_ ?_ (List.Perm.refl _)
  · have h : mapC3.candidates "e" = [(mapC3.candidates "e").headD junkRule] := rfl
    rw [h]; exact List.mem_singleton.mpr rfl
  · left
    constructor
    · intro a ha
      have : a = "x" := by simpa using ha
      subst this
      have h : ((mapC3.candidates "e").headD junkRule).arguments = ["x", "y"] := rfl
      rw [h]; simp
    · intro hsub
      have h : ((mapC3.candidates "e").headD junkRule).arguments = ["x", "y"] := rfl
      rw [h] at hsub
      have := hsub (show "y" ∈ ["x", "y"] by simp)
      simpa using this
  · intro s hs
    have h : mapC3.candidates "e" = [(mapC3.candidates "e").headD junkRule] := rfl
    rw [h] at hs
    have : s = (mapC3.candidates "e").headD junkRule := by simpa using hs
    subst this
    rfl

/-- C2 (a code bug): `Map.build` iterates `set(self._rules_by_endpoint[...])`
— an unordered set of rule objects — so with two candidates whose argument
sets both equal the supplied keys, which URL is returned depends on the
unspecified set iteration order, not on registration order: both the
registration order and its reverse are orders of the same candidate set, and
they produce different URLs. -/
theorem build_depends_on_set_order :
    mapC2.buildWith (mapC2.candidates "x") "x" [("n", .vInt 1)] "/" none false =
      .ok (.url "/a/1") ∧
    mapC2.buildWith ((mapC2.candidates "x").reverse) "x" [("n", .vInt 1)] "/" none false =
      .ok (.url "/b/1") ∧
    ((mapC2.candidates "x").reverse).Perm (mapC2.candidates "x") ∧
    ("/b/1" : String) ≠ "/a/1" :=
  ⟨rfl, rfl, List.reverse_perm _, by decide⟩

/-- C7: a `ValidationError` while decoding captures (`convertGroups`
reporting `none`) makes the rule's match attempt report no-match — not an
error — and the map's scan simply moves on to the next rule; likewise a
rule whose build replay failed validation (`build` reporting `none`) is
skipped by the build scan.  The error never escapes the overall
operation. -/
theorem validation_error_skips_rule
    (r : BoundRule) (key : List Char) (g : Caps) (rs : List BoundRule)
    (hg : r.preDecode key = .ok (.decode g))
    (hfail : convertGroups r.converters g = .ok none) :
    r.matchKey key = .ok .noMatch ∧
    scanRules key (r :: rs) = scanRules key rs ∧
    (∀ values rs2, r.build values = .ok none →
      buildScan values (r :: rs2) = buildScan values rs2) := by
  have hmk : r.matchKey key = .ok .noMatch := by
    simp only [BoundRule.matchKey, hg, hfail]
  refine ⟨hmk, ?_, ?_⟩
  · simp only [scanRules, hmk]
  · intro values rs2 hb
    cases hset : setEqStr r.arguments (values.map (fun x => x.1)) with
    | false => simp only [buildScan, hset, Bool.false_eq_true, if_false]
    | true => simp only [buildScan, hset, if_true, hb]

/-- Witness for C7: a rule using a registered custom converter whose decode
and encode always raise `ValidationError`. -/
theorem validation_error_skips_rule_witness :
    ruleC7.matchKey (mkKey "www" "/x/abc") = .ok .noMatch ∧
    scanRules (mkKey "www" "/x/abc") [ruleC7] = scanRules (mkKey "www" "/x/abc") [] ∧
    (∀ values rs2, ruleC7.build values = .ok none →
      buildScan values (ruleC7 :: rs2) = buildScan values rs2) :=
  validation_error_skips_rule ruleC7 (mkKey "www" "/x/abc") [("v", "abc")] [] rfl rfl

theorem scanRules_reaches_slash (key : List Char) (pre post : List BoundRule) (rr : BoundRule)
    (hpre : ∀ q ∈ pre, q.matchKey key = .ok .noMatch)
    (hrr : rr.matchKey key = .ok .requestSlash) :
    scanRules key (pre ++ rr :: post) = .ok (.slash rr) := by
  induction pre with
  | nil =>
    show scanRules key (rr :: post) = _
    unfold scanRules
    rw [hrr]
  | cons q qs ih =>
    show scanRules key (q :: (qs ++ rr :: post)) = _
    unfold scanRules
    rw [hpre q (List.mem_cons_self q qs)]
    exact ih (fun a ha => hpre a (List.mem_cons_of_mem q ha))

/-- C5: when the rule scan meets the `RequestSlash` condition (a strict,
non-leaf rule whose pattern matched the path without its trailing slash),
`Map.match` reports a redirect whose URL is exactly
`scheme://[subdomain.]server + script-without-trailing-slash + path + "/"`
— the original path with one slash appended, preserving subdomain, scheme
and script prefix. -/
theorem strict_slash_redirect_url
    (m : Map) (p script sub : String) (pre post : List BoundRule) (rr : BoundRule)
    (hsplit : m.sortedRules = pre ++ rr :: post)
    (hpre : ∀ q ∈ pre, q.matchKey (mkKey sub p) = .ok .noMatch)
    (hstrict : rr.strict_slashes = true) (hleaf : rr.is_leaf = false)
    (hrr : rr.matchKey (mkKey sub p) = .ok .requestSlash)
    (hp : "/" ++ String.mk (lstripSlash p.toList) = p) :
    m.matchUrl p script (some sub) = .ok (.redirect
      (m.url_scheme ++ "://" ++ (if sub = "" then "" else sub ++ ".") ++ m.server_name ++
        (scriptNorm script).dropRight 1 ++ (p ++ "/"))) := by
  have hscan : m.matchSel p (some sub) = .ok (.slash rr) := by
    unfold Map.matchSel
    show scanRules (mkKey sub p) m.sortedRules = _
    rw [hsplit]
    exact scanRules_reaches_slash _ pre post rr hpre hrr
  have hurl : redirectUrl m sub script p =
      m.url_scheme ++ "://" ++ (if sub = "" then "" else sub ++ ".") ++ m.server_name ++
        (scriptNorm script).dropRight 1 ++ (p ++ "/") := by
    unfold redirectUrl
    conv_rhs => rw [← hp]
    simp only [← String.append_assoc]
  simp only [Map.matchUrl, hscan, Option.getD_some, hurl]

/-- Witness for C5: the knowledge-base doctest rule, requested without the
trailing slash; the redirect URL is `http://kb.example.com/browse/42/`. -/
theorem strict_slash_redirect_url_witness :
    ((mapC5.sortedRules).headD junkRule).strict_slashes = true ∧
    ((mapC5.sortedRules).headD junkRule).is_leaf = false ∧
    mapC5.matchUrl "/browse/42" "/" (some "kb") =
      .ok (.redirect "http://kb.example.com/browse/42/") := by
  refine ⟨rfl, rfl, ?_⟩
  have h := strict_slash_redirect_url mapC5 "/browse/42" "/" "kb" [] []
    ((mapC5.sortedRules).headD junkRule) rfl (by intro q hq; exact absurd hq (List.not_mem_nil q))
    rfl rfl rfl (by decide)
  exact h.trans rfl

/-- The scan stops at the head when it matches. -/
theorem scanRules_cons_matched (key : List Char) (a : BoundRule) (l : List BoundRule)
    (vs : List (String × Value)) (h : a.matchKey key = .ok (.matched vs)) :
    scanRules key (a :: l) = .ok (.selected a vs) := by
  simp only [scanRules, h]

/-- Stable sort of a two-element list whose head may stay first. -/
theorem stableSort_pair (le : α → α → Bool) (a b : α) (h : le a b = true) :
    stableSort le [a, b] = [a, b] := by
  show insertStable le a (insertStable le b []) = [a, b]
  show insertStable le a [b] = [a, b]
  unfold insertStable
  rw [h]
  simp

/-- C9: registering the same rule spec twice and matching an input both
copies match selects the first-registered copy: the stable descending sort
preserves registration order on equal complexity and the scan
short-circuits on the first success. -/
theorem match_tie_selects_first_registered
    (s : RuleSpec) (p : MapParams) (m : Map) (r : BoundRule)
    (path : String) (sub : Option String) (vs : List (String × Value))
    (hbind : bindRule p s = .ok r)
    (hmk : mkMap [s, s] p = .ok m)
    (hmatch : r.matchKey (mkKey (sub.getD p.default_subdomain) path) = .ok (.matched vs)) :
    m.matchSel path sub = .ok (.selected { r with regIndex := 0 } vs) ∧
    m.matchUrl path "/" sub = .ok (.found r.endpoint vs) := by
  have hall : bindAll p [s, s] = .ok [r, r] := by
    simp only [bindAll, hbind]
  simp only [mkMap, hall] at hmk
  cases hmk
  have hle : ruleLe { r with regIndex := 0 } { r with regIndex := 1 } = true :=
    decide_eq_true (le_refl _)
  have hsorted : Map.sortedRules (⟨p.server_name, p.default_subdomain, p.url_scheme,
      p.strict_slashes, p.converters,
      (([r, r].enum).map fun ri => { ri.2 with regIndex := ri.1 })⟩ : Map) =
      [{ r with regIndex := 0 }, { r with regIndex := 1 }] := by
    show stableSort ruleLe [{ r with regIndex := 0 }, { r with regIndex := 1 }] = _
    exact stableSort_pair ruleLe _ _ hle
  have hsel : Map.matchSel (⟨p.server_name, p.default_subdomain, p.url_scheme,
      p.strict_slashes, p.converters,
      (([r, r].enum).map fun ri => { ri.2 with regIndex := ri.1 })⟩ : Map) path sub =
      .ok (.selected { r with regIndex := 0 } vs) := by
    unfold Map.matchSel
    rw [hsorted]
    exact scanRules_cons_matched _ _ _ _ hmatch
  refine ⟨hsel, ?_⟩
  simp only [Map.matchUrl, hsel]

/-- Witness for C9: the spec `/t/<int:k>` registered twice, matched at
`/t/5`. -/
theorem match_tie_selects_first_registered_witness :
    bindRule (defaultParams "s") specC9 = .ok ruleC9 ∧
    mapC9.matchSel "/t/5" none = .ok (.selected { ruleC9 with regIndex := 0 } [("k", .vInt 5)]) ∧
    mapC9.matchUrl "/t/5" "/" none = .ok (.found "e" [("k", .vInt 5)]) := by
  have h := match_tie_selects_first_registered specC9 (defaultParams "s") mapC9 ruleC9
    "/t/5" none [("k", .vInt 5)] rfl rfl rfl
  exact ⟨rfl, h.1, h.2⟩

theorem insertStable_perm (le : α → α → Bool) (x : α) (l : List α) :
    (insertStable le x l).Perm (x :: l) := by
  induction l with
  | nil => exact List.Perm.refl _
  | cons y ys ih =>
    unfold insertStable
    by_cases h : le x y = true
    · rw [if_pos h]
    · rw [if_neg h]
      exact (List.Perm.cons y ih).trans (List.Perm.swap x y ys)

theorem stableSort_perm (le : α → α → Bool) (l : List α) : (stableSort le l).Perm l := by
  induction l with
  | nil => exact List.Perm.refl _
  | cons x xs ih =>
    exact (insertStable_perm le x (stableSort le xs)).trans (List.Perm.cons x ih)

theorem insertStable_pairwise (le : α → α → Bool)
    (htot : ∀ a b, le a b = true ∨ le b a = true)
    (htrans : ∀ a b c, le a b = true → le b c = true → le a c = true)
    (x : α) (l : List α) (hl : l.Pairwise (fun a b => le a b = true)) :
    (insertStable le x l).Pairwise (fun a b => le a b = true) := by
  induction l with
  | nil => simp [insertStable]
  | cons y ys ih =>
    rcases List.pairwise_cons.mp hl with ⟨hy, hys⟩
    unfold insertStable
    by_cases h : le x y = true
    · rw [if_pos h]
      refine List.pairwise_cons.mpr ⟨?_, hl⟩
      intro b hb
      rcases List.mem_cons.mp hb with rfl | hb
      · exact h
      · exact htrans x y b h (hy b hb)
    · rw [if_neg h]
      refine List.pairwise_cons.mpr ⟨?_, ih hys⟩
      intro b hb
      have hmem := (insertStable_perm le x ys).mem_iff.mp hb
      rcases List.mem_cons.mp hmem with rfl | hb2
      · rcases htot b y with hby | hyb
        · exact absurd hby h
        · exact hyb
      · exact hy b hb2

theorem stableSort_pairwise (le : α → α → Bool)
    (htot : ∀ a b, le a b = true ∨ le b a = true)
    (htrans : ∀ a b c, le a b = true → le b c = true → le a c = true)
    (l : List α) : (stableSort le l).Pairwise (fun a b => le a b = true) := by
  induction l with
  | nil => simp [stableSort]
  | cons x xs ih => exact insertStable_pairwise le htot htrans x _ ih

theorem scanRules_selected_split (key : List Char) (L : List BoundRule) (r : BoundRule)
    (vs : List (String × Value)) (h : scanRules key L = .ok (.selected r vs)) :
    ∃ pre post, L = pre ++ r :: post ∧
      (∀ q ∈ pre, q.matchKey key = .ok .noMatch) ∧
      r.matchKey key = .ok (.matched vs) := by
  induction L with
  | nil => exact absurd h (by simp [scanRules])
  | cons a l ih =>
    cases hm : a.matchKey key with
    | error e =>
      simp only [scanRules, hm] at h
      exact absurd h (by simp)
    | ok rm =>
      simp only [scanRules, hm] at h
      cases rm with
      | noMatch =>
        obtain ⟨pre, post, h1, h2, h3⟩ := ih h
        refine ⟨a :: pre, post, by rw [List.cons_append, h1], ?_, h3⟩
        intro q hq
        rcases List.mem_cons.mp hq with rfl | hq
        · exact hm
        · exact h2 q hq
      | requestSlash => simp at h
      | matched vs0 =>
        injection h with h1
        injection h1 with h2 h3
        subst h2; subst h3
        exact ⟨[], l, rfl, by simp, hm⟩

/-- C4: a successful `Map.match` never comes from a rule when another rule
of strictly higher complexity also matches the key: the scan runs in
descending complexity order, so every rule that matches has complexity at
most the selected rule's; in particular a wildcard-subdomain rule (whose
complexity is pushed below zero by `-sys.maxint`) is never selected while a
subdomain-specific rule matches the same input. -/
theorem match_selects_max_complexity
    (m : Map) (path : String) (sub : Option String) (r : BoundRule)
    (vs : List (String × Value))
    (h : m.matchSel path sub = .ok (.selected r vs)) :
    (∀ s ∈ m.rules, ∀ w,
        s.matchKey (mkKey (sub.getD m.default_subdomain) path) = .ok (.matched w) →
        s.complexity ≤ r.complexity) ∧
    (r.subdomain = "ALL" → (r.arguments.length : Int) < maxint →
      ∀ s ∈ m.rules, s.subdomain ≠ "ALL" → ∀ w,
        s.matchKey (mkKey (sub.getD m.default_subdomain) path) ≠ .ok (.matched w)) := by
  have htot : ∀ a b : BoundRule, ruleLe a b = true ∨ ruleLe b a = true := by
    intro a b
    simp only [ruleLe, decide_eq_true_eq]
    exact le_total b.complexity a.complexity
  have htrans : ∀ a b c : BoundRule,
      ruleLe a b = true → ruleLe b c = true → ruleLe a c = true := by
    intro a b c hab hbc
    simp only [ruleLe, decide_eq_true_eq] at hab hbc ⊢
    exact le_trans hbc hab
  obtain ⟨pre, post, hsplit, hpre, _hr⟩ :=
    scanRules_selected_split (mkKey (sub.getD m.default_subdomain) path) m.sortedRules r vs h
  have hpair : (m.sortedRules).Pairwise (fun a b => ruleLe a b = true) :=
    stableSort_pairwise ruleLe htot htrans m.rules
  rw [hsplit] at hpair
  have hpost : ∀ b ∈ post, ruleLe r b = true := by
    have h2 := (List.pairwise_append.mp hpair).2.1
    exact (List.pairwise_cons.mp h2).1
  have main : ∀ s ∈ m.rules, ∀ w,
      s.matchKey (mkKey (sub.getD m.default_subdomain) path) = .ok (.matched w) →
      s.complexity ≤ r.complexity := by
    intro s hs w hw
    have hsmem : s ∈ pre ++ r :: post := by
      rw [← hsplit]
      exact ((stableSort_perm ruleLe m.rules).symm.mem_iff).mp hs
    rcases List.mem_append.mp hsmem with hin | hin
    · rw [hpre s hin] at hw
      simp at hw
    · rcases List.mem_cons.mp hin with rfl | hin
      · exact le_refl _
      · have hle := hpost s hin
        simpa only [ruleLe, decide_eq_true_eq] using hle
  refine ⟨main, ?_⟩
  intro hall hbound s hs hsub w hw
  have hle := main s hs w hw
  have hsc : s.complexity = (s.arguments.length : Int) := by
    unfold BoundRule.complexity; rw [if_neg hsub]
  have hrc : r.complexity = -maxint + (r.arguments.length : Int) := by
    unfold BoundRule.complexity; rw [if_pos hall]
  rw [hsc, hrc] at hle
  have hnn : (0 : Int) ≤ (s.arguments.length : Int) := Int.ofNat_nonneg _
  omega

/-- Witness for C4: a one-rule map matched at `/w/3`. -/
theorem match_selects_max_complexity_witness :
    mapC4.matchSel "/w/3" none =
      .ok (.selected ((mapC4.sortedRules).headD junkRule) [("q", .vInt 3)]) ∧
    (∀ s ∈ mapC4.rules, ∀ w,
        s.matchKey (mkKey "www" "/w/3") = .ok (.matched w) →
        s.complexity ≤ ((mapC4.sortedRules).headD junkRule).complexity) :=
  ⟨rfl, (match_selects_max_complexity mapC4 "/w/3" none
    ((mapC4.sortedRules).headD junkRule) [("q", .vInt 3)] rfl).1⟩

theorem parseRuleLoop_dup_iff (fuel : Nat) :
    ∀ (cs : List Char) (used : List String) (acc : List ParsedToken), used.Nodup →
    ((∃ v, parseRuleLoop fuel cs used acc = .error (.duplicateVariable v)) ↔
      ¬ (used ++ scanNamesLoop fuel cs).Nodup) := by
  induction fuel with
  | zero =>
    intro cs used acc hnd
    constructor
    · rintro ⟨v, hv⟩
      simp [parseRuleLoop] at hv
    · intro hcon
      exact absurd (by simpa [scanNamesLoop] using hnd) hcon
  | succ fuel ih =>
    intro cs used acc hnd
    cases hm : ruleReMatch cs with
    | none =>
      constructor
      · rintro ⟨v, hv⟩
        simp only [parseRuleLoop, hm] at hv
        by_cases h1 : cs.isEmpty
        · rw [if_pos h1] at hv; simp at hv
        · rw [if_neg h1] at hv
          by_cases h2 : (cs.contains '>' || cs.contains '<') = true
          · rw [if_pos h2] at hv; simp at hv
          · rw [if_neg h2] at hv; simp at hv
      · intro hcon
        exact absurd (by simpa [scanNamesLoop, hm] using hnd) hcon
    | some m =>
      simp only [parseRuleLoop, hm, scanNamesLoop]
      by_cases hc : used.contains m.var = true
      · have hmem : m.var ∈ used := by simpa using hc
        rw [if_pos hc]
        constructor
        · intro _
          intro hcon
          have := (List.nodup_append.mp hcon).2.2
          exact this hmem (List.mem_cons_self _ _)
        · intro _
          exact ⟨m.var, rfl⟩
      · have hmem : m.var ∉ used := by simpa using hc
        rw [if_neg hc]
        rw [ih m.rest (m.var :: used) _ (List.nodup_cons.mpr ⟨hmem, hnd⟩)]
        constructor
        · intro hcon hnodup
          apply hcon
          have hperm : (used ++ m.var :: scanNamesLoop fuel m.rest).Perm
              ((m.var :: used) ++ scanNamesLoop fuel m.rest) :=
            List.perm_middle.trans (List.Perm.refl _)
          exact hperm.nodup_iff.mp hnodup
        · intro hcon hnodup
          apply hcon
          have hperm : (used ++ m.var :: scanNamesLoop fuel m.rest).Perm
              ((m.var :: used) ++ scanNamesLoop fuel m.rest) :=
            List.perm_middle.trans (List.Perm.refl _)
          exact hperm.nodup_iff.mpr hnodup

/-- C8: `parse_rule` fails with the duplicate-variable `ValueError` exactly
when the scanner yields the same placeholder name twice; in particular, for
patterns whose placeholder names are all distinct it never raises that
error (though it may still reject the pattern as malformed). -/
theorem duplicate_variable_error_iff (p : String) :
    (∃ v, parse_rule p = .error (.duplicateVariable v)) ↔
      ¬ (placeholderNames p).Nodup := by
  have h := parseRuleLoop_dup_iff (p.toList.length + 1) p.toList [] [] List.nodup_nil
  simpa [parse_rule, placeholderNames] using h

/-- Counterexample to C6 as stated: with int converters only (injective in
the claim's sense), matching `/x/042` selects the rule `/x/<int:b>` of
endpoint `e2` with `b = 42`, but building that endpoint from `b = 42`
produces the canonical path `/x/42`, which on re-match is captured by the
equally specific, earlier-registered rule `/x/4<int:a>` — endpoint `e1`
with `a = 2`.  The round trip changes both endpoint and variables. -/
theorem roundtrip_fails_counterexample :
    mapC6.matchUrl "/x/042" "/" none = .ok (.found "e2" [("b", .vInt 42)]) ∧
    mapC6.buildWith (mapC6.candidates "e2") "e2" [("b", .vInt 42)] "/" none false =
      .ok (.url "/x/42") ∧
    mapC6.matchUrl "/x/42" "/" none = .ok (.found "e1" [("a", .vInt 2)]) ∧
    ("e1" : String) ≠ "e2" :=
  ⟨rfl, rfl, rfl, by decide⟩

theorem firstSome_eq_some (f : Nat → Option β) (ks : List Nat) (b : β)
    (h : firstSome f ks = some b) : ∃ k ∈ ks, f k = some b := by
  induction ks with
  | nil => simp [firstSome] at h
  | cons k ks ih =>
    cases hf : f k with
    | some r =>
      have he : firstSome f (k :: ks) = some r := by simp only [firstSome, hf]
      rw [he] at h
      injection h with h1
      subst h1
      exact ⟨k, List.mem_cons_self _ _, hf⟩
    | none =>
      have he : firstSome f (k :: ks) = firstSome f ks := by simp only [firstSome, hf]
      rw [he] at h
      obtain ⟨k2, hk2, hf2⟩ := ih h
      exact ⟨k2, List.mem_cons_of_mem _ hk2, hf2⟩

theorem leadEq_eq_some (t : List Char) : ∀ cs rest, leadEq t cs = some rest → cs = t ++ rest := by
  induction t with
  | nil =>
    intro cs rest h
    simpa [leadEq] using h
  | cons l ls ih =>
    intro cs rest h
    cases cs with
    | nil => simp [leadEq] at h
    | cons c ds =>
      simp only [leadEq] at h
      by_cases hd : c = l
      · rw [if_pos hd] at h
        rw [hd, ih ds rest h]
        rfl
      · rw [if_neg hd] at h
        cases h

theorem take_all_of_le_takeWhile (p : Char → Bool) :
    ∀ (cs : List Char) (k : Nat), k ≤ (cs.takeWhile p).length →
      (cs.take k).all p = true := by
  intro cs
  induction cs with
  | nil => intro k _; simp
  | cons c cs ih =>
    intro k h
    cases k with
    | zero => simp
    | succ k2 =>
      by_cases hp : p c = true
      · rw [List.takeWhile_cons, if_pos hp, List.length_cons] at h
        simp only [List.take_succ_cons, List.all_cons, hp, Bool.true_and]
        exact ih k2 (Nat.le_of_succ_le_succ h)
      · rw [List.takeWhile_cons, if_neg hp] at h
        simp at h

theorem length_takeWhile_le_length (p : Char → Bool) (cs : List Char) :
    (cs.takeWhile p).length ≤ cs.length := by
  induction cs with
  | nil => simp
  | cons c cs ih =>
    rw [List.takeWhile_cons]
    by_cases hp : p c = true
    · rw [if_pos hp]; simpa using ih
    · rw [if_neg hp]; simp

theorem toListMk (l : List Char) : (String.mk l).toList = l := rfl

/-- A successful skip-free anchored match reassembles to exactly the input,
and its captures fit their tokens (names in order, a `+` capture a nonempty
class run, a `?` capture at most one class character). -/
theorem reMatchFuel_flatten (fuel : Nat) :
    ∀ (ts : List RToken) (cs : List Char) (caps : Caps),
    skipFree ts = true → reMatchFuel fuel ts cs = some caps →
    flatten ts caps = some cs ∧ capsFit ts caps = true := by
  induction fuel with
  | zero =>
    intro ts cs caps _ h
    simp [reMatchFuel] at h
  | succ fuel ih =>
    intro ts cs caps hsf h
    cases ts with
    | nil =>
      by_cases hc : cs.isEmpty = true
      · have hcs : cs = [] := by simpa using hc
        subst hcs
        have h2 : (some [] : Option Caps) = some caps := by simpa [reMatchFuel] using h
        injection h2 with h3
        subst h3
        exact ⟨rfl, rfl⟩
      · simp only [reMatchFuel, hc] at h
        exact absurd h (by simp)
    | cons t ts2 =>
      cases t with
      | lit txt =>
        simp only [reMatchFuel] at h
        cases hl : leadEq txt cs with
        | none => rw [hl] at h; cases h
        | some rest =>
          rw [hl] at h
          obtain ⟨hf, hcf⟩ := ih ts2 rest caps (by simpa [skipFree] using hsf) h
          refine ⟨?_, hcf⟩
          simp only [flatten, hf, Option.map_some']
          rw [leadEq_eq_some txt cs rest hl]
      | cap n p lz =>
        simp only [reMatchFuel] at h
        obtain ⟨k, hk, hfk⟩ := firstSome_eq_some _ _ _ h
        cases hr : reMatchFuel fuel ts2 (cs.drop k) with
        | none => rw [hr] at hfk; cases hfk
        | some caps2 =>
          rw [hr] at hfk
          simp only [Option.map_some'] at hfk
          injection hfk with hceq
          subst hceq
          obtain ⟨hf, hcf⟩ := ih ts2 (cs.drop k) caps2 (by simpa [skipFree] using hsf) hr
          have hkb : 1 ≤ k ∧ k ≤ (cs.takeWhile p).length := by
            cases lz with
            | true =>
              rw [if_pos rfl] at hk
              rw [List.mem_range'_1] at hk
              omega
            | false =>
              rw [if_neg (by simp)] at hk
              rw [List.mem_reverse, List.mem_range'_1] at hk
              omega
          have hall : (cs.take k).all p = true := take_all_of_le_takeWhile p cs k hkb.2
          have hlen1 : 1 ≤ cs.length :=
            le_trans hkb.1 (le_trans hkb.2 (length_takeWhile_le_length p cs))
          have hne : (cs.take k).isEmpty = false := by
            cases hemp : (cs.take k).isEmpty with
            | false => rfl
            | true =>
              have h0 : cs.take k = [] := by simpa using hemp
              have hlen : (cs.take k).length = min k cs.length := List.length_take ..
              rw [h0] at hlen
              simp only [List.length_nil] at hlen
              omega
          constructor
          · simp only [flatten, if_pos rfl, hf, Option.map_some', toListMk]
            rw [List.take_append_drop]
            simp
          · simp [capsFit, toListMk, hne, hall, hcf]
      | capOpt n p =>
        simp only [reMatchFuel] at h
        obtain ⟨k, hk, hfk⟩ := firstSome_eq_some _ _ _ h
        cases hr : reMatchFuel fuel ts2 (cs.drop k) with
        | none => rw [hr] at hfk; cases hfk
        | some caps2 =>
          rw [hr] at hfk
          simp only [Option.map_some'] at hfk
          injection hfk with hceq
          subst hceq
          obtain ⟨hf, hcf⟩ := ih ts2 (cs.drop k) caps2 (by simpa [skipFree] using hsf) hr
          have hkb : k ≤ (cs.takeWhile p).length ∧ k ≤ 1 := by
            by_cases hz : (cs.takeWhile p).length = 0
            · rw [if_pos hz] at hk
              have hk0 : k = 0 := by simpa using hk
              omega
            · rw [if_neg hz] at hk
              have hk01 : k = 1 ∨ k = 0 := by simpa using hk
              omega
          have hall : (cs.take k).all p = true := take_all_of_le_takeWhile p cs k hkb.1
          have hlen2 : (cs.take k).length ≤ 1 := by
            have hlen : (cs.take k).length = min k cs.length := List.length_take ..
            omega
          constructor
          · simp only [flatten, if_pos rfl, hf, Option.map_some', toListMk]
            rw [List.take_append_drop]
            simp
          · simp [capsFit, toListMk, hall, hcf, hlen2]
            exact Or.inl hkb.2
      | skipAll p => simp [skipFree] at hsf

theorem skipFree_partsToTokens (parts : List PToken) :
    skipFree (partsToTokens parts) = true := by
  induction parts with
  | nil => rfl
  | cons pt rest ih =>
    cases pt with
    | pstatic s => exact ih
    | pdyn n c => exact ih

theorem skipFree_append (A : List RToken) (B : List RToken)
    (hA : skipFree A = true) (hB : skipFree B = true) : skipFree (A ++ B) = true := by
  induction A with
  | nil => exact hB
  | cons t A2 ih =>
    cases t with
    | lit txt => exact ih hA
    | cap n p lz => exact ih hA
    | capOpt n p => exact ih hA
    | skipAll p => simp [skipFree] at hA

theorem flatten_append_split (A : List RToken) :
    ∀ (B : List RToken) (caps : Caps) (flat : List Char),
    flatten (A ++ B) caps = some flat → capsFit (A ++ B) caps = true →
    ∃ capsA capsB flatA flatB, caps = capsA ++ capsB ∧ flat = flatA ++ flatB ∧
      flatten A capsA = some flatA ∧ flatten B capsB = some flatB ∧
      capsFit A capsA = true ∧ capsFit B capsB = true := by
  induction A with
  | nil =>
    intro B caps flat h hfit
    exact ⟨[], caps, [], flat, rfl, rfl, rfl, h, rfl, hfit⟩
  | cons t A2 ih =>
    intro B caps flat h hfit
    cases t with
    | lit txt =>
      simp only [List.cons_append, flatten, List.append_eq] at h
      have hfit2 : capsFit (A2 ++ B) caps = true := hfit
      cases hrec : flatten (A2 ++ B) caps with
      | none => rw [hrec] at h; cases h
      | some flat0 =>
        rw [hrec] at h
        simp only [Option.map_some'] at h
        injection h with h1
        obtain ⟨cA, cB, fA, fB, hc, hff, hfA, hfB, hfitA, hfitB⟩ := ih B caps flat0 hrec hfit2
        refine ⟨cA, cB, txt ++ fA, fB, hc, ?_, ?_, hfB, hfitA, hfitB⟩
        · rw [← h1, hff, List.append_assoc]
        · simp only [flatten, hfA, Option.map_some']
    | cap n p lz =>
      cases caps with
      | nil => simp [List.cons_append, flatten] at h
      | cons nt caps0 =>
        obtain ⟨n0, t0⟩ := nt
        simp only [List.cons_append, flatten, List.append_eq] at h
        by_cases hn : n0 = n
        · rw [if_pos hn] at h
          cases hrec : flatten (A2 ++ B) caps0 with
          | none => rw [hrec] at h; cases h
          | some flat0 =>
            rw [hrec] at h
            simp only [Option.map_some'] at h
            injection h with h1
            have hfit2 : (n0 == n && !t0.toList.isEmpty && t0.toList.all p &&
                capsFit (A2 ++ B) caps0) = true := hfit
            simp only [Bool.and_eq_true] at hfit2
            obtain ⟨⟨⟨hbeq, hne⟩, hall⟩, hrest⟩ := hfit2
            obtain ⟨cA, cB, fA, fB, hc, hff, hfA, hfB, hfitA, hfitB⟩ :=
              ih B caps0 flat0 hrec hrest
            refine ⟨(n0, t0) :: cA, cB, t0.toList ++ fA, fB, by rw [hc]; rfl, ?_, ?_, hfB, ?_, hfitB⟩
            · rw [← h1, hff, List.append_assoc]
            · simp only [flatten, if_pos hn, hfA, Option.map_some']
            · show (n0 == n && !t0.toList.isEmpty && t0.toList.all p && capsFit A2 cA) = true
              simp only [Bool.and_eq_true]
              exact ⟨⟨⟨hbeq, hne⟩, hall⟩, hfitA⟩
        · rw [if_neg hn] at h
          cases h
    | capOpt n p =>
      cases caps with
      | nil => simp [List.cons_append, flatten] at h
      | cons nt caps0 =>
        obtain ⟨n0, t0⟩ := nt
        simp only [List.cons_append, flatten, List.append_eq] at h
        by_cases hn : n0 = n
        · rw [if_pos hn] at h
          cases hrec : flatten (A2 ++ B) caps0 with
          | none => rw [hrec] at h; cases h
          | some flat0 =>
            rw [hrec] at h
            simp only [Option.map_some'] at h
            injection h with h1
            have hfit2 : (n0 == n && decide (t0.toList.length ≤ 1) && t0.toList.all p &&
                capsFit (A2 ++ B) caps0) = true := hfit
            simp only [Bool.and_eq_true] at hfit2
            obtain ⟨⟨⟨hbeq, hle⟩, hall⟩, hrest⟩ := hfit2
            obtain ⟨cA, cB, fA, fB, hc, hff, hfA, hfB, hfitA, hfitB⟩ :=
              ih B caps0 flat0 hrec hrest
            refine ⟨(n0, t0) :: cA, cB, t0.toList ++ fA, fB, by rw [hc]; rfl, ?_, ?_, hfB, ?_, hfitB⟩
            · rw [← h1, hff, List.append_assoc]
            · simp only [flatten, if_pos hn, hfA, Option.map_some']
            · show (n0 == n && decide (t0.toList.length ≤ 1) && t0.toList.all p &&
                capsFit A2 cA) = true
              simp only [Bool.and_eq_true]
              exact ⟨⟨⟨hbeq, hle⟩, hall⟩, hfitA⟩
        · rw [if_neg hn] at h
          cases h
    | skipAll p =>
      simp [List.cons_append, flatten] at h

theorem flatten_single_capOpt (n : String) (p : Char → Bool) (caps : Caps) (f : List Char)
    (h : flatten [.capOpt n p] caps = some f) :
    ∃ t, caps = [(n, t)] ∧ f = t.toList := by
  cases caps with
  | nil => simp [flatten] at h
  | cons nt caps0 =>
    obtain ⟨n0, t0⟩ := nt
    simp only [flatten] at h
    by_cases hn : n0 = n
    · rw [if_pos hn] at h
      cases caps0 with
      | nil =>
        have h2 : (some (t0.toList ++ []) : Option (List Char)) = some f := by
          simpa [flatten] using h
        injection h2 with h3
        exact ⟨t0, by rw [hn], by rw [← h3, List.append_nil]⟩
      | cons x xs =>
        simp [flatten] at h
    · rw [if_neg hn] at h
      cases h

theorem flatten_names (parts : List PToken) :
    ∀ (caps : Caps) (flat : List Char), flatten (partsToTokens parts) caps = some flat →
      caps.map (fun x => x.1) = dynNames parts := by
  induction parts with
  | nil =>
    intro caps flat h
    cases caps with
    | nil => rfl
    | cons x xs => simp [partsToTokens, flatten] at h
  | cons pt parts2 ih =>
    intro caps flat h
    cases pt with
    | pstatic s =>
      simp only [partsToTokens, flatten] at h
      cases hrec : flatten (partsToTokens parts2) caps with
      | none => rw [hrec] at h; cases h
      | some f0 => exact ih caps f0 hrec
    | pdyn n c =>
      cases caps with
      | nil => simp [partsToTokens, flatten] at h
      | cons nt caps0 =>
        obtain ⟨n0, t0⟩ := nt
        simp only [partsToTokens, flatten] at h
        by_cases hn : n0 = n
        · rw [if_pos hn] at h
          cases hrec : flatten (partsToTokens parts2) caps0 with
          | none => rw [hrec] at h; cases h
          | some f0 =>
            show n0 :: caps0.map (fun x => x.1) = n :: dynNames parts2
            rw [hn, ih caps0 f0 hrec]
        · rw [if_neg hn] at h
          cases h

theorem popKey_append_last (k : String) (v : String) :
    ∀ (caps : Caps), (∀ x ∈ caps, x.1 ≠ k) →
    popKey k (caps ++ [(k, v)]) = some (v, caps) := by
  intro caps
  induction caps with
  | nil =>
    intro _
    simp [popKey]
  | cons nt caps2 ih =>
    intro hx
    obtain ⟨n0, t0⟩ := nt
    have hne : n0 ≠ k := hx (n0, t0) (List.mem_cons_self _ _)
    have hrec := ih (fun x hxm => hx x (List.mem_cons_of_mem _ hxm))
    simp only [List.cons_append, popKey, if_neg hne, List.append_eq, hrec, Option.map_some']

theorem convertGroups_forall2 (convs : List (String × Converter)) :
    ∀ (g : Caps) (vs : List (String × Value)), convertGroups convs g = .ok (some vs) →
    List.Forall₂ (fun (nt : String × String) (nv : String × Value) =>
      nv.1 = nt.1 ∧ ∃ c, lookupKey nt.1 convs = some c ∧ c.to_python nt.2 = .ok nv.2) g vs := by
  intro g
  induction g with
  | nil =>
    intro vs h
    have h2 : (Except.ok (some ([] : List (String × Value))) :
        Except PyError (Option (List (String × Value)))) = .ok (some vs) := h
    injection h2 with h3
    injection h3 with h4
    rw [← h4]
    exact List.Forall₂.nil
  | cons nt g2 ih =>
    intro vs h
    obtain ⟨n, t⟩ := nt
    simp only [convertGroups] at h
    cases hl : lookupKey n convs with
    | none =>
      simp only [hl] at h
      exact absurd h (by simp)
    | some c =>
      simp only [hl] at h
      cases hp : c.to_python t with
      | error e => simp only [hp] at h; simp at h
      | ok v =>
        simp only [hp] at h
        cases hrec : convertGroups convs g2 with
        | error e =>
          simp only [hrec] at h
          exact absurd h (by simp)
        | ok o =>
          simp only [hrec] at h
          cases o with
          | none => simp at h
          | some vs2 =>
            have h2 : (Except.ok (some ((n, v) :: vs2)) :
                Except PyError (Option (List (String × Value)))) = .ok (some vs) := h
            injection h2 with h3
            injection h3 with h4
            rw [← h4]
            exact List.Forall₂.cons ⟨rfl, c, hl, hp⟩ (ih vs2 hrec)

theorem forall2_fst_eq (g : Caps) (vs : List (String × Value)) (convs : List (String × Converter))
    (h : List.Forall₂ (fun (nt : String × String) (nv : String × Value) =>
      nv.1 = nt.1 ∧ ∃ c, lookupKey nt.1 convs = some c ∧ c.to_python nt.2 = .ok nv.2) g vs) :
    vs.map (fun x => x.1) = g.map (fun x => x.1) := by
  induction h with
  | nil => rfl
  | cons hrel _ ih =>
    simp only [List.map_cons, ih, hrel.1]

theorem lookupKey_self_of_nodup (l : List (String × Value))
    (h : (l.map (fun x => x.1)).Nodup) :
    ∀ x ∈ l, lookupKey x.1 l = some x.2 := by
  induction l with
  | nil => intro x hx; cases hx
  | cons hd tl ih =>
    intro x hx
    simp only [List.map_cons, List.nodup_cons] at h
    rcases List.mem_cons.mp hx with rfl | hx2
    · simp [lookupKey]
    · have hne : hd.1 ≠ x.1 := by
        intro he
        exact h.1 (he ▸ List.mem_map_of_mem (fun y => y.1) hx2)
      simp only [lookupKey, if_neg hne]
      exact ih h.2 x hx2

theorem setEqStr_self (l : List String) : setEqStr l l = true := by
  simp only [setEqStr, Bool.and_eq_true, List.all_eq_true]
  constructor
  · intro x hx; exact List.elem_eq_true_of_mem hx
  · intro x hx; exact List.elem_eq_true_of_mem hx

theorem dropWhile_slash_idem (l : List Char) :
    List.dropWhile (fun c => c = '/') (List.dropWhile (fun c => c = '/') l) =
      List.dropWhile (fun c => c = '/') l := by
  induction l with
  | nil => rfl
  | cons c l ih =>
    by_cases hc : c = '/'
    · rw [List.dropWhile_cons, if_pos (by simpa using hc)]
      exact ih
    · rw [List.dropWhile_cons, if_neg (by simpa using hc)]
      rw [List.dropWhile_cons, if_neg (by simpa using hc)]

theorem lstripSlash_slash_lstrip (l : List Char) :
    lstripSlash ('/' :: lstripSlash l) = lstripSlash l := by
  show List.dropWhile (fun c => decide (c = '/')) ('/' :: lstripSlash l) = _
  rw [List.dropWhile_cons, if_pos (by simp)]
  exact dropWhile_slash_idem l

/-- Replaying the build trace of a part list over values that decode its
captures, when every capture is canonical (`to_url` of the decoded value
gives back the captured text), reproduces exactly the text the matcher
consumed, continued by any already-built tail. -/
theorem buildTrace_replay (convs : List (String × Converter)) (values : List (String × Value)) :
    ∀ (parts : List PToken) (caps : Caps) (vsp : List (String × Value)) (flat : List Char)
      (tailTr : List (Bool × String)) (tailS : String),
    List.Forall₂ (fun (nt : String × String) (nv : String × Value) =>
      nv.1 = nt.1 ∧ ∃ c, lookupKey nt.1 convs = some c ∧ c.to_python nt.2 = .ok nv.2) caps vsp →
    (∀ nv ∈ vsp, lookupKey nv.1 values = some nv.2) →
    (∀ nt ∈ caps, ∀ c, lookupKey nt.1 convs = some c →
      ∀ v, c.to_python nt.2 = .ok v → c.to_url v = .ok nt.2) →
    flatten (partsToTokens parts) caps = some flat →
    buildTrace convs values tailTr = .ok (some tailS) →
    buildTrace convs values (partsToTrace parts ++ tailTr) =
      .ok (some (String.mk flat ++ tailS)) := by
  intro parts
  induction parts with
  | nil =>
    intro caps vsp flat tailTr tailS hf2 hlv hcan hfl htail
    cases caps with
    | nil =>
      have h2 : (some ([] : List Char)) = some flat := hfl
      injection h2 with h3
      rw [← h3]
      simpa [partsToTrace] using htail
    | cons x xs => simp [partsToTokens, flatten] at hfl
  | cons pt parts2 ih =>
    intro caps vsp flat tailTr tailS hf2 hlv hcan hfl htail
    cases pt with
    | pstatic s =>
      simp only [partsToTokens, flatten] at hfl
      cases hrec : flatten (partsToTokens parts2) caps with
      | none => rw [hrec] at hfl; cases hfl
      | some flat0 =>
        rw [hrec] at hfl
        simp only [Option.map_some'] at hfl
        injection hfl with h1
        have hih := ih caps vsp flat0 tailTr tailS hf2 hlv hcan hrec htail
        show buildTrace convs values ((false, s) :: (partsToTrace parts2 ++ tailTr)) = _
        simp only [buildTrace, hih]
        rw [← h1]
        show Except.ok (some (s ++ (String.mk flat0 ++ tailS))) =
          Except.ok (some (String.mk (s.toList ++ flat0) ++ tailS))
        rw [← String.append_assoc]
        rfl
    | pdyn n c0 =>
      cases caps with
      | nil => simp [partsToTokens, flatten] at hfl
      | cons nt caps2 =>
        obtain ⟨n0, t0⟩ := nt
        simp only [partsToTokens, flatten] at hfl
        by_cases hn : n0 = n
        · rw [if_pos hn] at hfl
          cases hrec : flatten (partsToTokens parts2) caps2 with
          | none => rw [hrec] at hfl; cases hfl
          | some flat0 =>
            rw [hrec] at hfl
            simp only [Option.map_some'] at hfl
            injection hfl with h1
            cases hf2 with
            | cons hhead htl =>
              rename_i nv vsp2
              obtain ⟨hname, c, hlc, hpy⟩ := hhead
              have hlval : lookupKey nv.1 values = some nv.2 :=
                hlv nv (List.mem_cons_self _ _)
              have hurl : c.to_url nv.2 = .ok t0 :=
                hcan (n0, t0) (List.mem_cons_self _ _) c hlc nv.2 hpy
              have hih := ih caps2 vsp2 flat0 tailTr tailS htl
                (fun y hy => hlv y (List.mem_cons_of_mem _ hy))
                (fun y hy => hcan y (List.mem_cons_of_mem _ hy)) hrec htail
              show buildTrace convs values ((true, n) :: (partsToTrace parts2 ++ tailTr)) = _
              have hlc2 : lookupKey n convs = some c := hn ▸ hlc
              have hname2 : nv.1 = n0 := hname
              have hlval2 : lookupKey n values = some nv.2 := by
                rw [← hn, ← hname2]; exact hlval
              simp only [buildTrace, hlc2, hlval2, hurl, hih]
              rw [← h1]
              show Except.ok (some (t0 ++ (String.mk flat0 ++ tailS))) =
                Except.ok (some (String.mk (t0.toList ++ flat0) ++ tailS))
              rw [← String.append_assoc]
              rfl
        · rw [if_neg hn] at hfl
          cases hfl

theorem matchKey_decode_inv (r : BoundRule) (key : List Char) (g : Caps)
    (vs : List (String × Value))
    (hpd : r.preDecode key = .ok (.decode g))
    (hmk : r.matchKey key = .ok (.matched vs)) :
    convertGroups r.converters g = .ok (some vs) := by
  unfold BoundRule.matchKey at hmk
  simp only [hpd] at hmk
  cases hcg : convertGroups r.converters g with
  | error e =>
    simp only [hcg] at hmk
    exact absurd hmk (by simp)
  | ok o =>
    simp only [hcg] at hmk
    cases o with
    | none => simp at hmk
    | some vs0 =>
      injection hmk with h1
      injection h1 with h2
      rw [h2]

theorem splitSlash_ne_nil (l : List Char) : splitSlash l ≠ [] := by
  cases l with
  | nil => simp [splitSlash]
  | cons c rest =>
    unfold splitSlash
    by_cases hc : c = '/'
    · rw [if_pos hc]; simp
    · rw [if_neg hc]
      cases splitSlash rest with
      | nil => simp
      | cons s ss => simp

theorem joinSlash_cons_head (c : Char) (s : List Char) (ss : List (List Char)) :
    joinSlash ((c :: s) :: ss) = c :: joinSlash (s :: ss) := by
  cases ss with
  | nil => rfl
  | cons t ts => rfl

theorem joinSlash_splitSlash (l : List Char) : joinSlash (splitSlash l) = l := by
  induction l with
  | nil => rfl
  | cons c rest ih =>
    unfold splitSlash
    by_cases hc : c = '/'
    · rw [if_pos hc]
      cases hsp : splitSlash rest with
      | nil => exact absurd hsp (splitSlash_ne_nil rest)
      | cons s ss =>
        show joinSlash ([] :: s :: ss) = c :: rest
        rw [hsp] at ih
        show [] ++ '/' :: joinSlash (s :: ss) = c :: rest
        rw [List.nil_append, ih, hc]
    · rw [if_neg hc]
      cases hsp : splitSlash rest with
      | nil => exact absurd hsp (splitSlash_ne_nil rest)
      | cons s ss =>
        rw [hsp] at ih
        show joinSlash ((c :: s) :: ss) = c :: rest
        rw [joinSlash_cons_head, ih]

theorem getLast_mem_of_eq (l : List α) (a : α) (h : l.getLast? = some a) : a ∈ l := by
  induction l with
  | nil => simp [List.getLast?] at h
  | cons x xs ih =>
    cases xs with
    | nil =>
      have hx : x = a := by simpa [List.getLast?] using h
      rw [hx]
      exact List.mem_cons_self _ _
    | cons y ys =>
      rw [List.getLast?_cons_cons] at h
      exact List.mem_cons_of_mem _ (ih h)

theorem dropWhile_head_false (p : Char → Bool) :
    ∀ (l : List Char) (c : Char) (t : List Char), l.dropWhile p = c :: t → p c = false := by
  intro l
  induction l with
  | nil => intro c t h; simp at h
  | cons a rest ih =>
    intro c t h
    by_cases hp : p a = true
    · rw [List.dropWhile_cons, if_pos hp] at h
      exact ih c t h
    · rw [List.dropWhile_cons, if_neg hp] at h
      injection h with h1 _
      rw [← h1]
      simp at hp
      exact hp

theorem lstrip_not_starts (l : List Char) :
    pyStartsSlash (String.mk (lstripSlash l)) = false := by
  unfold pyStartsSlash
  rw [toListMk]
  cases hd : lstripSlash l with
  | nil => rfl
  | cons c t => exact dropWhile_head_false _ l c t hd

theorem collapseOnce_eq_none (segs : List (List Char))
    (h : ∀ s ∈ segs, s ≠ ['.', '.']) : collapseOnce segs = none := by
  induction segs with
  | nil => rfl
  | cons a tail ih =>
    cases tail with
    | nil => rfl
    | cons b tail2 =>
      cases tail2 with
      | nil => rfl
      | cons c rest =>
        unfold collapseOnce
        rw [if_neg (fun hcnd => h b (List.mem_cons_of_mem _ (List.mem_cons_self _ _)) hcnd.1)]
        rw [ih (fun s hs => h s (List.mem_cons_of_mem _ hs))]
        rfl

theorem collapseAll_eq_self (fuel : Nat) (segs : List (List Char))
    (h : collapseOnce segs = none) : collapseAll fuel segs = segs := by
  cases fuel with
  | zero => rfl
  | succ f =>
    unfold collapseAll
    rw [h]

/-- Joining the lstripped relative path `Map.build` produces onto the root
script name is plain concatenation once the path has no `'.'` or `'..'`
segments (the case `urljoin`'s dot-segment resolution leaves alone). -/
theorem pyUrljoin_lstrip (l : List Char)
    (hseg : ∀ seg ∈ splitSlash (lstripSlash l), seg ≠ ['.'] ∧ seg ≠ ['.', '.']) :
    pyUrljoin "/" (String.mk (lstripSlash l)) = "/" ++ String.mk (lstripSlash l) := by
  by_cases hX : lstripSlash l = []
  · rw [hX]
    rfl
  · have hne2 : ¬ (String.mk (lstripSlash l) = "") :=
      fun he => hX (congrArg String.data he)
    have hne3 : ¬ (pyStartsSlash (String.mk (lstripSlash l)) = true) := by
      rw [lstrip_not_starts]
      simp
    unfold pyUrljoin
    rw [if_neg (by decide), if_neg hne2, if_neg hne3]
    show String.mk (joinSlash (finalDots (collapseAll
        (((dotLastToEmpty ([] :: splitSlash (lstripSlash l))).filter
          (fun s => s ≠ ['.'])).length + 1)
        ((dotLastToEmpty ([] :: splitSlash (lstripSlash l))).filter
          (fun s => s ≠ ['.']))))) =
      "/" ++ String.mk (lstripSlash l)
    have hmem : ∀ s ∈ [] :: splitSlash (lstripSlash l), s ≠ ['.'] ∧ s ≠ ['.', '.'] := by
      intro s hs
      rcases List.mem_cons.mp hs with rfl | hs2
      · exact ⟨by simp, by simp⟩
      · exact hseg s hs2
    have h1 : dotLastToEmpty ([] :: splitSlash (lstripSlash l)) =
        [] :: splitSlash (lstripSlash l) := by
      unfold dotLastToEmpty
      rw [if_neg (fun hgl => (hmem _ (getLast_mem_of_eq _ _ hgl)).1 rfl)]
    have h2 : ([] :: splitSlash (lstripSlash l)).filter (fun s => s ≠ ['.']) =
        [] :: splitSlash (lstripSlash l) := by
      rw [List.filter_eq_self]
      intro s hs
      simpa using (hmem s hs).1
    have h3 : collapseOnce ([] :: splitSlash (lstripSlash l)) = none :=
      collapseOnce_eq_none _ (fun s hs => (hmem s hs).2)
    have h5 : finalDots ([] :: splitSlash (lstripSlash l)) =
        [] :: splitSlash (lstripSlash l) := by
      unfold finalDots
      rw [if_neg, if_neg]
      · rintro ⟨_, hgl⟩
        exact (hmem _ (getLast_mem_of_eq _ _ hgl)).2 rfl
      · intro he
        injection he with _ h7
        have : (['.', '.'] : List Char) ∈ splitSlash (lstripSlash l) := by
          rw [h7]
          exact List.mem_cons_self _ _
        exact (hseg _ this).2 rfl
    have h6 : joinSlash ([] :: splitSlash (lstripSlash l)) = '/' :: lstripSlash l := by
      cases hsp : splitSlash (lstripSlash l) with
      | nil => exact absurd hsp (splitSlash_ne_nil _)
      | cons s ss =>
        show [] ++ '/' :: joinSlash (s :: ss) = '/' :: lstripSlash l
        rw [List.nil_append, ← hsp, joinSlash_splitSlash]
    rw [h1, h2, collapseAll_eq_self _ _ h3, h5, h6]
    rfl

/-- The common core of the amended round-trip: once the selected rule's
parts, captures and canonical decode are in hand, `build` reproduces the
normalised original path and re-matching it reproduces the original
outcome. -/
theorem roundtrip_core
    (m : Map) (p sub : String) (r : BoundRule) (vs : List (String × Value))
    (parts : List PToken) (capsP : Caps) (flatA : List Char)
    (tailTr : List (Bool × String)) (sufS : String)
    (hsel : m.matchSel p (some sub) = .ok (.selected r vs))
    (hcand : m.candidates r.endpoint = [r])
    (hsubr : r.subdomain = sub)
    (hargs : r.arguments = dynNames parts)
    (htr : r.trace = partsToTrace parts ++ tailTr)
    (hnd : (dynNames parts).Nodup)
    (hdec : convertGroups r.converters capsP = .ok (some vs))
    (hflatA : flatten (partsToTokens parts) capsP = some flatA)
    (hcanonP : ∀ nt ∈ capsP, ∀ c, lookupKey nt.1 r.converters = some c →
      ∀ v, c.to_python nt.2 = .ok v → c.to_url v = .ok nt.2)
    (htail : buildTrace r.converters vs tailTr = .ok (some sufS))
    (hnodots : ∀ seg ∈ splitSlash (lstripSlash p.toList), seg ≠ ['.'] ∧ seg ≠ ['.', '.'])
    (hkeyTail : '/' :: lstripSlash p.toList = flatA ++ sufS.toList) :
    m.matchUrl p "/" (some sub) = .ok (.found r.endpoint vs) ∧
    m.buildWith [r] r.endpoint vs "/" (some sub) false =
      .ok (.url ("/" ++ String.mk (lstripSlash p.toList))) ∧
    m.matchUrl ("/" ++ String.mk (lstripSlash p.toList)) "/" (some sub) =
      .ok (.found r.endpoint vs) := by
  have hf2 := convertGroups_forall2 r.converters capsP vs hdec
  have hnamesg : capsP.map (fun x => x.1) = dynNames parts :=
    flatten_names parts capsP flatA hflatA
  have hnamesv : vs.map (fun x => x.1) = dynNames parts :=
    (forall2_fst_eq capsP vs r.converters hf2).trans hnamesg
  have hlv : ∀ nv ∈ vs, lookupKey nv.1 vs = some nv.2 :=
    lookupKey_self_of_nodup vs (by rw [hnamesv]; exact hnd)
  have hbuildTr := buildTrace_replay r.converters vs parts capsP vs flatA tailTr sufS
    hf2 hlv hcanonP hflatA htail
  have hrb : r.build vs = .ok (some (String.mk flatA ++ sufS)) := by
    unfold BoundRule.build
    rw [htr]
    exact hbuildTr
  have hrvl : (String.mk flatA ++ sufS).toList = '/' :: lstripSlash p.toList := by
    rw [toList_append, toListMk, hkeyTail]
  have hscan2 : buildScan vs [r] = .ok (some (r, String.mk flatA ++ sufS)) := by
    have hseq : setEqStr r.arguments (vs.map (fun x => x.1)) = true := by
      rw [hargs, hnamesv]
      exact setEqStr_self _
    simp only [buildScan, hseq, if_true, hrb]
  have hlrv : lstripSlash (String.mk flatA ++ sufS).toList = lstripSlash p.toList := by
    rw [hrvl]
    exact lstripSlash_slash_lstrip p.toList
  have hbw : m.buildWith [r] r.endpoint vs "/" (some sub) false =
      .ok (.url ("/" ++ String.mk (lstripSlash p.toList))) := by
    unfold Map.buildWith
    rw [hcand]
    simp only [List.isEmpty, Bool.false_eq_true, if_false, hscan2, Option.getD_some]
    rw [if_pos (show ¬False ∧ r.subdomain = sub from ⟨not_false, hsubr⟩)]
    have hsn : scriptNorm "/" = "/" := rfl
    rw [hsn, hlrv, pyUrljoin_lstrip p.toList hnodots]
  have hp2l : ("/" ++ String.mk (lstripSlash p.toList)).toList = '/' :: lstripSlash p.toList := by
    rw [toList_append]
    rfl
  have hkey2 : mkKey sub ("/" ++ String.mk (lstripSlash p.toList)) = mkKey sub p := by
    unfold mkKey
    rw [hp2l]
    rw [show lstripSlash ('/' :: lstripSlash p.toList) = lstripSlash p.toList from
      lstripSlash_slash_lstrip p.toList]
  have hsel2 : m.matchSel ("/" ++ String.mk (lstripSlash p.toList)) (some sub) =
      .ok (.selected r vs) := by
    unfold Map.matchSel
    rw [Option.getD_some, hkey2]
    exact hsel
  refine ⟨?_, hbw, ?_⟩
  · simp only [Map.matchUrl, hsel]
  · simp only [Map.matchUrl, hsel2]

theorem mkKey_cancel (sub p : String) (flatX : List Char)
    (h : mkKey sub p = ('<' :: sub.toList ++ ['>']) ++ flatX) :
    '/' :: lstripSlash p.toList = flatX := by
  unfold mkKey at h
  simp only [List.cons_append, List.append_assoc, List.nil_append, List.cons.injEq,
    true_and] at h
  have h2 := List.append_cancel_left h
  simpa using h2

/-- C6 amended: the match/build round trip holds once the failure modes of
the counterexamples are excluded — the selected rule is the only rule of
its endpoint (so `build`'s unordered candidate-set iteration is forced), it
is a well-formed non-wildcard rule bound to the requested subdomain, every
capture is canonical (`to_url` after `to_python` reproduces the captured
text, e.g. int captures without leading zeros), and the path has no `'.'`
or `'..'` segments — which `urljoin` would resolve away on build — and none
of the delimiter characters `':'`, `';'`, `'?'`, `'#'` that `urlparse`
treats as scheme, parameter, query or fragment markers (the modelling scope
of `pyUrljoin`).  Then `build` produces the normalised original path and
re-matching it yields the same endpoint and variable mapping. -/
theorem roundtrip_amended
    (m : Map) (p sub : String) (r : BoundRule) (vs : List (String × Value))
    (hsel : m.matchSel p (some sub) = .ok (.selected r vs))
    (hWF : RuleWF r)
    (hcand : m.candidates r.endpoint = [r])
    (hsubr : r.subdomain = sub)
    (hstrict : r.strict_slashes = true)
    (hnodots : ∀ seg ∈ splitSlash (lstripSlash p.toList), seg ≠ ['.'] ∧ seg ≠ ['.', '.'])
    (hplain : ∀ c ∈ lstripSlash p.toList, c ≠ ':' ∧ c ≠ ';' ∧ c ≠ '?' ∧ c ≠ '#')
    (hcanon : ∀ g, reMatch r.tokens (mkKey sub p) = some g →
      ∀ nt ∈ g, nt.1 ≠ "__suffix__" →
      ∀ c, lookupKey nt.1 r.converters = some c →
      ∀ v, c.to_python nt.2 = .ok v → c.to_url v = .ok nt.2) :
    m.matchUrl p "/" (some sub) = .ok (.found r.endpoint vs) ∧
    m.buildWith [r] r.endpoint vs "/" (some sub) false =
      .ok (.url ("/" ++ String.mk (lstripSlash p.toList))) ∧
    m.matchUrl ("/" ++ String.mk (lstripSlash p.toList)) "/" (some sub) =
      .ok (.found r.endpoint vs) := by
  obtain ⟨parts, htok, htr, hconv, hargs, hnd, hnsuf⟩ := hWF
  obtain ⟨pre1, post1, _hsp, _hpre1, hmatch⟩ :=
    scanRules_selected_split (mkKey sub p) m.sortedRules r vs hsel
  rw [hsubr] at htok
  cases hre : reMatch r.tokens (mkKey sub p) with
  | none =>
    exfalso
    have hnm : r.matchKey (mkKey sub p) = .ok .noMatch := by
      unfold BoundRule.matchKey BoundRule.preDecode
      simp only [hre]
    rw [hnm] at hmatch
    simp at hmatch
  | some groups =>
    cases hleaf : r.is_leaf with
    | true =>
      rw [hleaf] at htok htr
      simp only [if_true, List.append_nil] at htok htr
      have hsf : skipFree r.tokens = true := by
        rw [htok]
        exact skipFree_partsToTokens parts
      obtain ⟨hfl, _hfit⟩ :=
        reMatchFuel_flatten (r.tokens.length + 1) r.tokens (mkKey sub p) groups hsf hre
      rw [htok] at hfl
      simp only [flatten] at hfl
      cases hfla : flatten (partsToTokens parts) groups with
      | none => rw [hfla] at hfl; cases hfl
      | some flatA =>
        rw [hfla] at hfl
        simp only [Option.map_some'] at hfl
        injection hfl with hkeq
        have hkt : '/' :: lstripSlash p.toList = flatA := mkKey_cancel sub p flatA hkeq.symm
        have hpd : r.preDecode (mkKey sub p) = .ok (.decode groups) := by
          unfold BoundRule.preDecode
          simp only [hre]
          rw [if_neg (fun hc => hc.2 hleaf)]
        have hdec := matchKey_decode_inv r (mkKey sub p) groups vs hpd hmatch
        have hcanonP : ∀ nt ∈ groups, ∀ c, lookupKey nt.1 r.converters = some c →
            ∀ v, c.to_python nt.2 = .ok v → c.to_url v = .ok nt.2 := by
          intro nt hnt c hc v hv
          refine hcanon groups hre nt hnt ?_ c hc v hv
          have hmemn : nt.1 ∈ dynNames parts := by
            rw [← flatten_names parts groups flatA hfla]
            exact List.mem_map_of_mem _ hnt
          intro he
          rw [he] at hmemn
          exact hnsuf hmemn
        have hker : '/' :: lstripSlash p.toList = flatA ++ ("" : String).toList := by
          rw [hkt]
          simp
        exact roundtrip_core m p sub r vs parts groups flatA [] "" hsel hcand hsubr hargs
          (by rw [htr]; simp) hnd hdec hfla hcanonP rfl hnodots hker
    | false =>
      rw [hleaf] at htok htr
      simp only [Bool.false_eq_true, if_false] at htok htr
      have hsf : skipFree r.tokens = true := by
        rw [htok]
        exact skipFree_append _ _ (skipFree_partsToTokens parts) rfl
      obtain ⟨hfl, hfit⟩ :=
        reMatchFuel_flatten (r.tokens.length + 1) r.tokens (mkKey sub p) groups hsf hre
      rw [htok] at hfl hfit
      simp only [flatten] at hfl
      cases hfla2 : flatten (partsToTokens parts ++
          [RToken.capOpt "__suffix__" (· = '/')]) groups with
      | none => rw [hfla2] at hfl; cases hfl
      | some kflat =>
        rw [hfla2] at hfl
        simp only [Option.map_some'] at hfl
        injection hfl with hkeq
        have hfitR : capsFit (partsToTokens parts ++
            [RToken.capOpt "__suffix__" (· = '/')]) groups = true := hfit
        obtain ⟨capsA, capsB, flatA, flatB, hcapssplit, hflatsplit, hflA, hflB, _hfitA, hfitB⟩ :=
          flatten_append_split (partsToTokens parts) _ groups kflat hfla2 hfitR
        obtain ⟨sfx, hcapsB, hflatB2⟩ := flatten_single_capOpt _ _ capsB flatB hflB
        rw [hcapsB] at hfitB
        simp only [capsFit, Bool.and_eq_true, decide_eq_true_eq, beq_self_eq_true,
          List.all_eq_true] at hfitB
        obtain ⟨⟨⟨_, hslen⟩, hsall⟩, _⟩ := hfitB
        have hnames := flatten_names parts capsA flatA hflA
        have hnosufA : ∀ x ∈ capsA, x.1 ≠ "__suffix__" := by
          intro x hx he
          apply hnsuf
          rw [← hnames, ← he]
          exact List.mem_map_of_mem _ hx
        have hpop : popKey "__suffix__" groups = some (sfx, capsA) := by
          rw [hcapssplit, hcapsB]
          exact popKey_append_last _ _ capsA hnosufA
        have hcond : r.strict_slashes = true ∧ ¬ (r.is_leaf = true) := by
          refine ⟨hstrict, ?_⟩
          simp [hleaf]
        by_cases hs0 : sfx = ""
        · exfalso
          have hpd : r.preDecode (mkKey sub p) = .ok .slash := by
            unfold BoundRule.preDecode
            simp only [hre]
            rw [if_pos hcond]
            simp only [hpop]
            rw [if_pos hs0]
          have hrs : r.matchKey (mkKey sub p) = .ok .requestSlash := by
            unfold BoundRule.matchKey
            simp only [hpd]
          rw [hrs] at hmatch
          simp at hmatch
        · have hsl : sfx.toList = ['/'] := by
            cases hcl : sfx.toList with
            | nil =>
              exfalso
              apply hs0
              apply String.ext
              exact hcl
            | cons c rest =>
              have hc : c = '/' := by
                have := hsall c (by rw [hcl]; exact List.mem_cons_self _ _)
                simpa using this
              have hrest : rest = [] := by
                rw [hcl] at hslen
                simp only [List.length_cons] at hslen
                have : rest.length = 0 := by omega
                exact List.length_eq_zero.mp this
              rw [hc, hrest]
          have hpd : r.preDecode (mkKey sub p) = .ok (.decode capsA) := by
            unfold BoundRule.preDecode
            simp only [hre]
            rw [if_pos hcond]
            simp only [hpop]
            rw [if_neg hs0]
          have hdec := matchKey_decode_inv r (mkKey sub p) capsA vs hpd hmatch
          have hcanonP : ∀ nt ∈ capsA, ∀ c, lookupKey nt.1 r.converters = some c →
              ∀ v, c.to_python nt.2 = .ok v → c.to_url v = .ok nt.2 := by
            intro nt hnt c hc v hv
            refine hcanon groups hre nt ?_ ?_ c hc v hv
            · rw [hcapssplit]
              exact List.mem_append_left _ hnt
            · exact hnosufA nt hnt
          have hkt : '/' :: lstripSlash p.toList = kflat := mkKey_cancel sub p kflat hkeq.symm
          have hker : '/' :: lstripSlash p.toList = flatA ++ ("/" : String).toList := by
            rw [hkt, hflatsplit, hflatB2, hsl]
            rfl
          exact roundtrip_core m p sub r vs parts capsA flatA [(false, "/")] "/" hsel hcand
            hsubr hargs htr hnd hdec hflA hcanonP rfl hnodots hker

/-- Witness for the amended C6: the single int rule `/x/<int:a>`, matched at
the canonical path `/x/7`, builds back `/x/7` and re-matches to the same
endpoint and variables. -/
theorem roundtrip_amended_witness :
    mapC6w.matchUrl "/x/7" "/" (some "www") = .ok (.found "e" [("a", .vInt 7)]) ∧
    mapC6w.buildWith [(mapC6w.rules).headD junkRule] "e" [("a", .vInt 7)] "/"
      (some "www") false = .ok (.url "/x/7") ∧
    mapC6w.matchUrl "/x/7" "/" (some "www") = .ok (.found "e" [("a", .vInt 7)]) := by
  have hWF : RuleWF ((mapC6w.rules).headD junkRule) := by
    refine ⟨[.pstatic "/x/",
      .pdyn "a" ((((mapC6w.rules).headD junkRule).converters.headD ("", rejectConv)).2)],
      rfl, rfl, rfl, rfl, by decide, by decide⟩
  have hcanon : ∀ g, reMatch ((mapC6w.rules).headD junkRule).tokens (mkKey "www" "/x/7") =
        some g →
      ∀ nt ∈ g, nt.1 ≠ "__suffix__" →
      ∀ c, lookupKey nt.1 ((mapC6w.rules).headD junkRule).converters = some c →
      ∀ v, c.to_python nt.2 = .ok v → c.to_url v = .ok nt.2 := by
    intro g hg nt hnt hne c hc v hv
    have hg2 : ([("a", "7")] : Caps) = g := Option.some.inj hg
    rw [← hg2] at hnt
    have hnt2 : nt = ("a", "7") := by simpa using hnt
    subst hnt2
    have hc2 : some ((((mapC6w.rules).headD junkRule).converters.headD ("", rejectConv)).2) =
        some c := hc
    injection hc2 with hc3
    rw [← hc3] at hv ⊢
    have hv2 : Except.ok (Value.vInt 7) = Except.ok v := hv
    injection hv2 with hv3
    rw [← hv3]
    rfl
  have h := roundtrip_amended mapC6w "/x/7" "www" ((mapC6w.rules).headD junkRule)
    [("a", .vInt 7)] rfl hWF rfl rfl rfl (by decide) (by decide) hcanon
  exact ⟨h.1, h.2.1, h.2.2⟩

end Werkzeug
